import Mathlib

/-!
Verification of the tobes-ui acquisition engine against its specification.

The Python sources are shallowly embedded:
* bytes are natural numbers `< 256`, byte strings are `List ℕ`;
* Python ints are `ℕ` (all quantities here are non-negative), Python floats
  are idealised as `ℚ` (exact rational arithmetic);
* `struct.pack("<f", x)` (the IEEE-754 float bit pattern) is not computed:
  the 32-bit pattern is taken as an input (`tLe` below) or supplied by an
  arbitrary function `f32 : ℚ → ℕ` over which the theorems quantify;
* exceptions become `Except String`, `None` becomes `Option.none`.
-/

namespace TobesUI

/-! ### Byte helpers (`int.to_bytes`, `int.from_bytes`, `struct` byte swaps) -/

/-- `int.to_bytes(n, k, "little")`: the `k` little-endian bytes of `n`. -/
def toBytesLE : ℕ → ℕ → List ℕ
  | 0, _ => []
  | k + 1, n => n % 256 :: toBytesLE k (n / 256)

/-- `int.from_bytes(bs, "little")`: read a little-endian byte list. -/
def fromBytesLE : List ℕ → ℕ
  | [] => 0
  | b :: rest => b + 256 * fromBytesLE rest

/-- `struct.unpack(">H", struct.pack("<H", n))[0]`: swap the two bytes of a
16-bit value. -/
def byteswap16 (n : ℕ) : ℕ := ((n &&& 0xFF) <<< 8) ||| (n >>> 8)

/-- `int.from_bytes(bs, "big")` where `bs` are the 4 little-endian bytes of
`n`: reverse the byte order of a 32-bit value. -/
def byteswap32 (n : ℕ) : ℕ := fromBytesLE ((toBytesLE 4 n).reverse)

/-- `_calculate_checksum` (protocol.py line 64): `sum(message) & 0xFF`. -/
def calculateChecksum (message : List ℕ) : ℕ := message.sum &&& 0xFF

/-! ### Protocol enumerations (protocol.py lines 8-42) -/

/-- `MessageType` (protocol.py line 8). -/
inductive MessageType
  | stop
  | getDeviceId
  | setExposureMode
  | getExposureMode
  | setExposureValue
  | getExposureValue
  | getRange
  | getData
deriving DecidableEq, Repr

/-- The wire code of each `MessageType`. -/
def MessageType.code : MessageType → ℕ
  | .stop => 0x04
  | .getDeviceId => 0x08
  | .setExposureMode => 0x0A
  | .getExposureMode => 0x0B
  | .setExposureValue => 0x0C
  | .getExposureValue => 0x0D
  | .getRange => 0x0F
  | .getData => 0x33

/-- `MessageType(b)`: look a byte up in the enum, `none` models the
`ValueError` Python raises on an unknown code. -/
def MessageType.ofCode? (b : ℕ) : Option MessageType :=
  if b = 0x04 then some .stop
  else if b = 0x08 then some .getDeviceId
  else if b = 0x0A then some .setExposureMode
  else if b = 0x0B then some .getExposureMode
  else if b = 0x0C then some .setExposureValue
  else if b = 0x0D then some .getExposureValue
  else if b = 0x0F then some .getRange
  else if b = 0x33 then some .getData
  else none

/-- `ExposureMode` (protocol.py line 24). -/
inductive ExposureMode
  | manual
  | automatic
deriving DecidableEq, Repr

/-- `ExposureMode(b)`. -/
def ExposureMode.ofCode? (b : ℕ) : Option ExposureMode :=
  if b = 0x00 then some .manual
  else if b = 0x01 then some .automatic
  else none

/-- `ExposureStatus` (protocol.py line 34). -/
inductive ExposureStatus
  | normal
  | over
  | under
deriving DecidableEq, Repr

/-- `ExposureStatus(b)`. -/
def ExposureStatus.ofCode? (b : ℕ) : Option ExposureStatus :=
  if b = 0x00 then some .normal
  else if b = 0x01 then some .over
  else if b = 0x02 then some .under
  else none

/-! ### The spectral payload decoder (protocol.py lines 45-61) -/

/-- `_decode_spectrum` (protocol.py line 45).  `tLe` is
`int.from_bytes(struct.pack("<f", exposure_time), "little")`, i.e. the raw
IEEE-754 bit pattern of the exposure-time float; computing that bit pattern
is float packing, outside this embedding, so the pattern itself is the
input.  Python's `/` is idealised as exact division in `ℚ`. -/
def decodeSpectrum (encodedSpectrum : List ℕ) (encodedExponent tLe serial exInfo : ℕ) :
    List ℚ :=
  let common := byteswap32 tLe ^^^ (exInfo >>> 16)
  let keyA := (common ^^^ ((tLe ^^^ serial) >>> 16) ^^^ serial ^^^ exInfo) &&& 0xFFFF
  let keyB := ((common >>> 16) ^^^ tLe ^^^ serial) &&& 0xFFFF
  let exponent := byteswap16 encodedExponent ^^^ 8848
  let scale : ℚ := (10 : ℚ) ^ exponent
  let midpoint := encodedSpectrum.length / 2
  encodedSpectrum.enum.map fun p =>
    ((p.2 ^^^ (if p.1 < midpoint then keyA else keyB) : ℕ) : ℚ) / scale

/-! ### Parsed messages (`_parse_message`, protocol.py lines 81-129)

A parsed message is the dict `{"message_type": t, ...}`: the type plus the
type-dependent extra fields. -/

/-- The type-dependent fields `_parse_message` adds to the message dict.
`typeOnly` is the fall-through for types without a `match` case (`STOP`). -/
inductive MessageFields
  | typeOnly
  | deviceId (chars : List ℕ)
  | success (ok : Bool)
  | exposureMode (m : ExposureMode)
  | exposureTimeUs (n : ℕ)
  | range (startWavelength endWavelength : ℕ)
  | spectrumData (status : ExposureStatus) (exposureTime : ℚ) (spectrum : List ℚ)
deriving DecidableEq, Repr

/-- A parsed message: the dict built by `_parse_message`. -/
structure Message where
  messageType : MessageType
  fields : MessageFields
deriving DecidableEq, Repr

/-- `[item[0] for item in struct.iter_unpack("<H", data)]`: split a byte list
into 16-bit little-endian words (the caller checks the length is even, as
`iter_unpack` raises on a trailing odd byte). -/
def unpackWords : List ℕ → List ℕ
  | a :: b :: rest => (a + 256 * b) :: unpackWords rest
  | _ => []

/-- `_parse_message` (protocol.py line 81).  `f32 q` stands for the IEEE-754
bit pattern of the float `q` (see `decodeSpectrum`); the theorems quantify
over it.  Python exceptions (`IndexError`, `struct.error`, enum
`ValueError`, `UnicodeDecodeError`) become `Except.error`. -/
def parseMessage (f32 : ℚ → ℕ) (t : MessageType) (data : List ℕ) :
    Except String Message :=
  match t with
  | .stop => .ok ⟨t, .typeOnly⟩
  | .getDeviceId =>
      if data.all (· < 128) then .ok ⟨t, .deviceId data⟩
      else .error "UnicodeDecodeError"
  | .setExposureMode =>
      if data.length = 1 then .ok ⟨t, .success (data.getD 0 0 = 0x00)⟩
      else
        match data.head? with
        | none => .error "IndexError"
        | some b =>
            match ExposureMode.ofCode? b with
            | some m => .ok ⟨t, .exposureMode m⟩
            | none => .error "ValueError: ExposureMode"
  | .getExposureMode =>
      match data.head? with
      | none => .error "IndexError"
      | some b =>
          match ExposureMode.ofCode? b with
          | some m => .ok ⟨t, .exposureMode m⟩
          | none => .error "ValueError: ExposureMode"
  | .setExposureValue =>
      match data.head? with
      | none => .error "IndexError"
      | some b => .ok ⟨t, .success (b = 0x00)⟩
  | .getExposureValue =>
      if data.length = 4 then .ok ⟨t, .exposureTimeUs (fromBytesLE data)⟩
      else .error "struct.error"
  | .getRange =>
      if data.length = 4 then
        .ok ⟨t, .range (fromBytesLE (data.take 2)) (fromBytesLE (data.drop 2))⟩
      else .error "struct.error"
  | .getData =>
      if 19 ≤ data.length ∧ (data.length - 19) % 2 = 0 then
        match ExposureStatus.ofCode? (data.getD 0 0) with
        | none => .error "ValueError: ExposureStatus"
        | some st =>
            let exposureTimeUs := fromBytesLE ((data.drop 1).take 4)
            let encodedExponent := fromBytesLE ((data.drop 5).take 2)
            let serialNumber := fromBytesLE ((data.drop 7).take 4)
            let exInfo := fromBytesLE ((data.drop 11).take 8)
            let encodedSpectrum := unpackWords (data.drop 19)
            let exposureTime : ℚ := (exposureTimeUs : ℚ) / 1000
            .ok ⟨t, .spectrumData st exposureTime
              (decodeSpectrum encodedSpectrum encodedExponent (f32 exposureTime)
                serialNumber exInfo)⟩
      else .error "struct.error"

/-! ### Frame encoding (`build_message`, protocol.py lines 68-78) -/

/-- `build_message` (protocol.py line 68): outbound magic `CC 01`, 3-byte
little-endian total length `9 + len(data)`, type code, payload, checksum over
everything so far, terminator `0D 0A`. -/
def buildMessage (t : MessageType) (data : List ℕ) : List ℕ :=
  let m := [0xCC, 0x01] ++ toBytesLE 3 (9 + data.length) ++ [t.code] ++ data
  m ++ [calculateChecksum m] ++ [0x0D, 0x0A]

/-- The frame the device sends back: identical layout to `buildMessage` but
with the inbound magic `CC 81` (and hence a checksum recomputed over the
inbound bytes).  `parse_messages` (line 137) accepts exactly this shape. -/
def buildInboundMessage (t : MessageType) (data : List ℕ) : List ℕ :=
  let m := [0xCC, 0x81] ++ toBytesLE 3 (9 + data.length) ++ [t.code] ++ data
  m ++ [calculateChecksum m] ++ [0x0D, 0x0A]

/-! ### Frame decoding (`parse_messages`, protocol.py lines 132-158) -/

/-- What one iteration of the `parse_messages` loop does to the buffer. -/
inductive StepResult
  | wait
  | msg (m : Message) (rem : List ℕ)
  | fail (e : String)
deriving DecidableEq, Repr

/-- One iteration of the `parse_messages` while-loop (protocol.py lines
136-152): `wait` is the `break` on a buffer below 5 bytes or shorter than
the announced frame length, `fail` a raised `ValueError`, `msg` an appended
message together with the advanced buffer `data[length:]`.  Indices use
truncated `ℕ` subtraction; a frame whose length field is below 9 would make
Python index from the end of the buffer, a region no verified property
reaches (all frames here carry their true length, which is at least 9). -/
def parseStep (f32 : ℚ → ℕ) (data : List ℕ) : StepResult :=
  if 5 ≤ data.length then
    if data.take 2 = [0xCC, 0x81] then
      let length := fromBytesLE ((data.drop 2).take 3)
      if data.length < length then .wait
      else if calculateChecksum (data.take (length - 3)) ≠ data.getD (length - 3) 0 then
        .fail "Invalid checksum"
      else if (data.drop (length - 2)).take 2 ≠ [0x0D, 0x0A] then
        .fail "Invalid end bytes"
      else
        match MessageType.ofCode? (data.getD 5 0) with
        | none => .fail "ValueError: MessageType"
        | some t =>
            match parseMessage f32 t ((data.drop 6).take (length - 9)) with
            | .error e => .fail e
            | .ok m => .msg m (data.drop length)
    else .fail "Invalid start bytes"
  else .wait

/-- The `parse_messages` while-loop, with the remaining message budget
(`max_messages - len(messages)`) as the recursion fuel: every iteration that
does not stop appends one message.  Python's
`if len(messages) >= max_messages: break` after an append is the remaining
budget being 0 or 1 before it. -/
def parseMessagesAux (f32 : ℚ → ℕ) : ℕ → List ℕ → Except String (List ℕ × List Message)
  | 0, data =>
      match parseStep f32 data with
      | .wait => .ok (data, [])
      | .fail e => .error e
      | .msg m rem => .ok (rem, [m])
  | budget + 1, data =>
      match parseStep f32 data with
      | .wait => .ok (data, [])
      | .fail e => .error e
      | .msg m rem =>
          if budget = 0 then .ok (rem, [m])
          else
            match parseMessagesAux f32 budget rem with
            | .error e => .error e
            | .ok (rem2, ms) => .ok (rem2, m :: ms)

/-- `parse_messages` (protocol.py line 132): parse up to `maxMessages` frames
from the buffer, returning the unconsumed remainder and the parsed messages
(or the first raised error). -/
def parseMessages (f32 : ℚ → ℕ) (data : List ℕ) (maxMessages : ℕ := 1) :
    Except String (List ℕ × List Message) :=
  parseMessagesAux f32 maxMessages data

/-! ### C1: the payload decoder computes the specified bit-level algorithm -/

/-- C1: `_decode_spectrum` computes exactly the specified bit-level
algorithm: for every sample array, encoded exponent, exposure-time float
(given by its IEEE-754 bit pattern `tLe`), serial and ex_info, the output
has one entry per sample, and entry `i` is
`(sample[i] XOR (key_a if i < N/2 else key_b)) / 10^(byteswap16(encoded_exponent) XOR 8848)`
with `key_a = (common XOR ((T_le XOR serial) >> 16) XOR serial XOR ex_info) & 0xFFFF`,
`key_b = (common >> 16 XOR T_le XOR serial) & 0xFFFF` and
`common = T_be XOR (ex_info >> 16)`, `T_be` the byte swap of `T_le`. -/
theorem decode_spectrum_formula (es : List ℕ) (ee tLe serial exInfo : ℕ)
    (i : ℕ) (hi : i < es.length) :
    (decodeSpectrum es ee tLe serial exInfo).length = es.length ∧
    (decodeSpectrum es ee tLe serial exInfo).getD i 0 =
      (((es.getD i 0) ^^^
        (if i < es.length / 2 then
          ((byteswap32 tLe ^^^ (exInfo >>> 16)) ^^^ ((tLe ^^^ serial) >>> 16) ^^^
              serial ^^^ exInfo) &&& 0xFFFF
         else
          (((byteswap32 tLe ^^^ (exInfo >>> 16)) >>> 16) ^^^ tLe ^^^ serial) &&& 0xFFFF)
        : ℕ) : ℚ) / (10 : ℚ) ^ (byteswap16 ee ^^^ 8848) := by
  constructor
  · simp [decodeSpectrum]
  · have hlen : (decodeSpectrum es ee tLe serial exInfo).length = es.length := by
      simp [decodeSpectrum]
    have hi' : i < (decodeSpectrum es ee tLe serial exInfo).length := by
      rw [hlen]; exact hi
    rw [List.getD_eq_getElem _ _ hi', List.getD_eq_getElem _ _ hi]
    simp only [decodeSpectrum, List.getElem_map, List.getElem_enum]

/-- Witness for `decode_spectrum_formula` at a concrete input. -/
theorem decode_spectrum_formula_witness :
    (0 : ℕ) < ([7, 9] : List ℕ).length ∧
    ((decodeSpectrum [7, 9] 36898 0 0 0).length = ([7, 9] : List ℕ).length ∧
    (decodeSpectrum [7, 9] 36898 0 0 0).getD 0 0 =
      (((([7, 9] : List ℕ).getD 0 0) ^^^
        (if 0 < ([7, 9] : List ℕ).length / 2 then
          ((byteswap32 0 ^^^ ((0 : ℕ) >>> 16)) ^^^ (((0 : ℕ) ^^^ 0) >>> 16) ^^^
              0 ^^^ 0) &&& 0xFFFF
         else
          (((byteswap32 0 ^^^ ((0 : ℕ) >>> 16)) >>> 16) ^^^ 0 ^^^ 0) &&& 0xFFFF)
        : ℕ) : ℚ) / (10 : ℚ) ^ (byteswap16 36898 ^^^ 8848)) :=
  ⟨by decide, decode_spectrum_formula [7, 9] 36898 0 0 0 0 (by decide)⟩

/-! ### Helper lemmas about the byte-level functions -/

theorem toBytesLE_length (k n : ℕ) : (toBytesLE k n).length = k := by
  induction k generalizing n with
  | zero => simp [toBytesLE]
  | succ k ih => simp [toBytesLE, ih]

theorem fromBytesLE_toBytesLE (k n : ℕ) (h : n < 256 ^ k) :
    fromBytesLE (toBytesLE k n) = n := by
  induction k generalizing n with
  | zero =>
      have : n = 0 := by simpa using h
      simp [toBytesLE, fromBytesLE, this]
  | succ k ih =>
      have hdiv : n / 256 < 256 ^ k := by
        rw [Nat.div_lt_iff_lt_mul (by norm_num)]
        calc n < 256 ^ (k + 1) := h
        _ = 256 ^ k * 256 := by ring
      simp only [toBytesLE, fromBytesLE, ih (n / 256) hdiv]
      omega

theorem toBytesLE_lt (k n : ℕ) : ∀ b ∈ toBytesLE k n, b < 256 := by
  induction k generalizing n with
  | zero => simp [toBytesLE]
  | succ k ih =>
      intro b hb
      simp only [toBytesLE, List.mem_cons] at hb
      rcases hb with h | h
      · omega
      · exact ih _ _ h

theorem calculateChecksum_lt (l : List ℕ) : calculateChecksum l < 256 := by
  have h : l.sum &&& 0xFF ≤ 0xFF := Nat.and_le_right
  simp only [calculateChecksum]
  omega

theorem MessageType.ofCode?_code (t : MessageType) :
    MessageType.ofCode? t.code = some t := by
  cases t <;> rfl

theorem MessageType.code_lt (t : MessageType) : t.code < 256 := by
  cases t <;> simp [MessageType.code]

/-! ### Frame shape lemmas -/

/-- The checksummed prefix of an inbound frame (everything before the
checksum byte). -/
def framePre (t : MessageType) (p : List ℕ) : List ℕ :=
  [0xCC, 0x81] ++ toBytesLE 3 (9 + p.length) ++ [t.code] ++ p

theorem buildInboundMessage_eq (t : MessageType) (p : List ℕ) :
    buildInboundMessage t p = framePre t p ++ [calculateChecksum (framePre t p)] ++ [13, 10] :=
  rfl

theorem framePre_length (t : MessageType) (p : List ℕ) :
    (framePre t p).length = 6 + p.length := by
  simp [framePre, toBytesLE_length]
  omega

theorem buildInboundMessage_length (t : MessageType) (p : List ℕ) :
    (buildInboundMessage t p).length = 9 + p.length := by
  simp [buildInboundMessage_eq, framePre_length]
  omega

theorem framePre_lt (t : MessageType) (p : List ℕ)
    (hp : ∀ b ∈ p, b < 256) : ∀ b ∈ framePre t p, b < 256 := by
  intro b hb
  simp only [framePre, List.append_assoc, List.mem_append, List.mem_cons,
    List.not_mem_nil, or_false] at hb
  rcases hb with (hb | hb) | hb | hb | hb
  · omega
  · omega
  · exact toBytesLE_lt _ _ _ hb
  · subst hb; exact t.code_lt
  · exact hp _ hb

theorem buildInboundMessage_lt (t : MessageType) (p : List ℕ)
    (hp : ∀ b ∈ p, b < 256) : ∀ b ∈ buildInboundMessage t p, b < 256 := by
  intro b hb
  rw [buildInboundMessage_eq] at hb
  simp only [List.mem_append] at hb
  rcases hb with (hb | hb) | hb
  · exact framePre_lt t p hp b hb
  · simp only [List.mem_singleton] at hb
    subst hb; exact calculateChecksum_lt _
  · simp only [List.mem_cons, List.not_mem_nil, or_false] at hb
    rcases hb with hb | hb <;> (subst hb; norm_num)

theorem frame_take2 (t : MessageType) (p rest : List ℕ) :
    (buildInboundMessage t p ++ rest).take 2 = [0xCC, 0x81] := by
  simp only [buildInboundMessage_eq, framePre, List.append_assoc, List.cons_append,
    List.nil_append]
  rfl

theorem frame_lenfield (t : MessageType) (p rest : List ℕ) :
    ((buildInboundMessage t p ++ rest).drop 2).take 3 = toBytesLE 3 (9 + p.length) := by
  have h : buildInboundMessage t p ++ rest =
      0xCC :: 0x81 :: (toBytesLE 3 (9 + p.length) ++
        (t.code :: (p ++ calculateChecksum (framePre t p) :: 13 :: 10 :: rest))) := by
    simp [buildInboundMessage_eq, framePre, List.append_assoc]
  rw [h, List.drop_succ_cons, List.drop_succ_cons, List.drop_zero]
  simp [toBytesLE]

theorem frame_take_pre (t : MessageType) (p rest : List ℕ) :
    (buildInboundMessage t p ++ rest).take (6 + p.length) = framePre t p := by
  have h : buildInboundMessage t p ++ rest =
      framePre t p ++ (calculateChecksum (framePre t p) :: 13 :: 10 :: rest) := by
    simp [buildInboundMessage_eq, List.append_assoc]
  rw [h, show 6 + p.length = (framePre t p).length from (framePre_length t p).symm,
    List.take_left]

theorem frame_getD_chk (t : MessageType) (p rest : List ℕ) :
    (buildInboundMessage t p ++ rest).getD (6 + p.length) 0 =
      calculateChecksum (framePre t p) := by
  have h : buildInboundMessage t p ++ rest =
      framePre t p ++ (calculateChecksum (framePre t p) :: 13 :: 10 :: rest) := by
    simp [buildInboundMessage_eq, List.append_assoc]
  rw [h]
  have hlt : 6 + p.length <
      (framePre t p ++ (calculateChecksum (framePre t p) :: 13 :: 10 :: rest)).length := by
    simp [framePre_length]
  rw [List.getD_eq_getElem _ _ hlt,
    List.getElem_append_right (by rw [framePre_length])]
  simp [framePre_length]

theorem frame_drop_term (t : MessageType) (p rest : List ℕ) :
    (buildInboundMessage t p ++ rest).drop (7 + p.length) = 13 :: 10 :: rest := by
  have h : buildInboundMessage t p ++ rest =
      (framePre t p ++ [calculateChecksum (framePre t p)]) ++ (13 :: 10 :: rest) := by
    simp [buildInboundMessage_eq, List.append_assoc]
  rw [h, show 7 + p.length = (framePre t p ++ [calculateChecksum (framePre t p)]).length by
      simp [framePre_length]; omega,
    List.drop_left]

theorem frame_getD5 (t : MessageType) (p rest : List ℕ) :
    (buildInboundMessage t p ++ rest).getD 5 0 = t.code := by
  have h : buildInboundMessage t p ++ rest =
      0xCC :: 0x81 :: (toBytesLE 3 (9 + p.length) ++
        (t.code :: (p ++ calculateChecksum (framePre t p) :: 13 :: 10 :: rest))) := by
    simp [buildInboundMessage_eq, framePre, List.append_assoc]
  rw [h]
  simp [toBytesLE, List.getD]

theorem frame_payload_slice (t : MessageType) (p rest : List ℕ) :
    ((buildInboundMessage t p ++ rest).drop 6).take p.length = p := by
  have h : buildInboundMessage t p ++ rest =
      ([0xCC, 0x81] ++ toBytesLE 3 (9 + p.length) ++ [t.code]) ++
        (p ++ calculateChecksum (framePre t p) :: 13 :: 10 :: rest) := by
    simp [buildInboundMessage_eq, framePre, List.append_assoc]
  have hpre : ([0xCC, 0x81] ++ toBytesLE 3 (9 + p.length) ++ [t.code]).length = 6 := by
    simp [toBytesLE_length]
  rw [h, show (6 : ℕ) = ([0xCC, 0x81] ++ toBytesLE 3 (9 + p.length) ++ [t.code]).length
      from hpre.symm, List.drop_left, List.take_left]

theorem frame_drop_all (t : MessageType) (p rest : List ℕ) :
    (buildInboundMessage t p ++ rest).drop (9 + p.length) = rest := by
  rw [show 9 + p.length = (buildInboundMessage t p).length
      from (buildInboundMessage_length t p).symm, List.drop_left]

/-- A buffer that starts with a complete well-formed inbound frame: the
frame's checksum and terminator verify, the original type and payload are
handed to the per-type parser, and the loop advances past the frame. -/
theorem parseStep_frame (f32 : ℚ → ℕ) (t : MessageType) (p rest : List ℕ)
    (hlen : 9 + p.length < 16777216) :
    parseStep f32 (buildInboundMessage t p ++ rest) =
      match parseMessage f32 t p with
      | .error e => .fail e
      | .ok m => .msg m rest := by
  have hDlen : (buildInboundMessage t p ++ rest).length = 9 + p.length + rest.length := by
    simp [buildInboundMessage_length]
  have hfield : fromBytesLE (((buildInboundMessage t p ++ rest).drop 2).take 3) =
      9 + p.length := by
    rw [frame_lenfield]
    exact fromBytesLE_toBytesLE 3 _ (by norm_num; omega)
  unfold parseStep
  simp only [hfield, frame_take2, frame_getD5, MessageType.ofCode?_code]
  rw [if_pos (by omega)]
  simp only [if_true]
  rw [if_neg (by omega)]
  rw [if_neg (by
    rw [show 9 + p.length - 3 = 6 + p.length by omega, frame_take_pre, frame_getD_chk]
    simp)]
  rw [if_neg (by
    rw [show 9 + p.length - 2 = 7 + p.length by omega, frame_drop_term]
    simp)]
  rw [show 9 + p.length - 9 = p.length by omega, frame_payload_slice, frame_drop_all]

/-- A proper prefix of a well-formed inbound frame makes the loop wait for
more bytes: no error, no message. -/
theorem parseStep_partial (f32 : ℚ → ℕ) (t : MessageType) (p : List ℕ)
    (k : ℕ) (hk : k < (buildInboundMessage t p).length) (hlen : 9 + p.length < 16777216) :
    parseStep f32 ((buildInboundMessage t p).take k) = .wait := by
  have hL := buildInboundMessage_length t p
  have hklen : ((buildInboundMessage t p).take k).length = k := by
    rw [List.length_take]; omega
  unfold parseStep
  by_cases h5 : 5 ≤ ((buildInboundMessage t p).take k).length
  · have hk5 : 5 ≤ k := by omega
    have hF : buildInboundMessage t p = buildInboundMessage t p ++ [] := by simp
    have ht2 : ((buildInboundMessage t p).take k).take 2 = [0xCC, 0x81] := by
      rw [List.take_take, show (2 : ℕ) ⊓ k = 2 by omega, hF, frame_take2]
    have hfield : fromBytesLE ((((buildInboundMessage t p).take k).drop 2).take 3) =
        9 + p.length := by
      rw [List.drop_take, List.take_take, show (3 : ℕ) ⊓ (k - 2) = 3 by omega, hF,
        frame_lenfield]
      exact fromBytesLE_toBytesLE 3 _ (by norm_num; omega)
    simp only [hfield, ht2, if_true]
    rw [if_pos h5]
    rw [if_pos (by omega : ((buildInboundMessage t p).take k).length < 9 + p.length)]
  · rw [if_neg h5]

/-- Composition: parsing a buffer that starts with a complete well-formed
frame parses that frame first and then continues with the remaining budget on
the remaining bytes. -/
theorem parseAux_frame (f32 : ℚ → ℕ) (t : MessageType) (p rest : List ℕ) (budget : ℕ)
    (hlen : 9 + p.length < 16777216) :
    parseMessagesAux f32 budget (buildInboundMessage t p ++ rest) =
      match parseMessage f32 t p with
      | .error e => .error e
      | .ok m =>
          if budget ≤ 1 then .ok (rest, [m])
          else
            match parseMessagesAux f32 (budget - 1) rest with
            | .error e => .error e
            | .ok (rem, ms) => .ok (rem, m :: ms) := by
  cases budget with
  | zero =>
      simp only [parseMessagesAux, parseStep_frame f32 t p rest hlen]
      cases parseMessage f32 t p with
      | error e => rfl
      | ok m => simp
  | succ b =>
      simp only [parseMessagesAux, parseStep_frame f32 t p rest hlen]
      cases parseMessage f32 t p with
      | error e => rfl
      | ok m =>
          cases b with
          | zero => simp
          | succ c =>
              simp only [show ¬(c + 1 = 0) by omega, if_false,
                show ¬(c + 1 + 1 ≤ 1) by omega, Nat.add_sub_cancel]

/-- Composition: a proper prefix of a frame is returned unconsumed with no
messages, whatever the budget. -/
theorem parseAux_partial (f32 : ℚ → ℕ) (budget : ℕ) (t : MessageType) (p : List ℕ)
    (k : ℕ) (hk : k < (buildInboundMessage t p).length) (hlen : 9 + p.length < 16777216) :
    parseMessagesAux f32 budget ((buildInboundMessage t p).take k) =
      .ok ((buildInboundMessage t p).take k, []) := by
  cases budget <;> simp only [parseMessagesAux, parseStep_partial f32 t p k hk hlen]

/-! ### C2: encode/decode round trip -/

/-- C2 counterexample: decoding the bytes produced by `build_message` does
not succeed and does not yield the message back: `build_message` emits the
outbound magic `CC 01` (protocol.py line 71) while `parse_messages` accepts
only the inbound magic `CC 81` (line 137), so `decode(encode(type, payload))`
raises the framing `ValueError` even for the trivial STOP frame with empty
payload. -/
theorem decode_encode_counterexample :
    parseMessages (fun _ => 0) (buildMessage .stop []) 1 =
      .error "Invalid start bytes" := rfl

/-- C2 (amended): the round trip holds for the inbound rendering of the
frame: for every message type and payload (with the frame length
representable in the 3-byte length field), decoding the inbound frame built
from that type and payload verifies checksum and terminator, consumes the
whole frame, and hands exactly the original type and payload to the per-type
payload parser, whose result (tagged with that type) is the single returned
message; decoding of the outbound `build_message` bytes themselves fails on
the magic. -/
theorem inbound_encode_decode_roundtrip (f32 : ℚ → ℕ) (t : MessageType) (p : List ℕ)
    (hlen : 9 + p.length < 16777216) :
    (parseMessages f32 (buildInboundMessage t p) 1 =
      match parseMessage f32 t p with
      | .error e => .error e
      | .ok m => .ok ([], [m])) ∧
    (p.length = 0 → parseMessages f32 (buildMessage t p) 1 =
      .error "Invalid start bytes") := by
  constructor
  · have h := parseAux_frame f32 t p [] 1 hlen
    rw [show buildInboundMessage t p ++ [] = buildInboundMessage t p by simp] at h
    rw [parseMessages, h]
    cases parseMessage f32 t p with
    | error e => rfl
    | ok m => simp
  · intro hp
    have hpnil : p = [] := List.length_eq_zero.mp hp
    subst hpnil
    cases t <;> rfl

/-- Witness for `inbound_encode_decode_roundtrip` at a concrete input. -/
theorem inbound_encode_decode_roundtrip_witness :
    9 + ([2, 0, 1, 0] : List ℕ).length < 16777216 ∧
    ((parseMessages (fun _ => (0 : ℕ)) (buildInboundMessage .getRange [2, 0, 1, 0]) 1 =
      match parseMessage (fun _ => (0 : ℕ)) .getRange [2, 0, 1, 0] with
      | .error e => .error e
      | .ok m => .ok ([], [m])) ∧
    (([2, 0, 1, 0] : List ℕ).length = 0 →
      parseMessages (fun _ => (0 : ℕ)) (buildMessage .getRange [2, 0, 1, 0]) 1 =
        .error "Invalid start bytes")) :=
  ⟨by norm_num,
   inbound_encode_decode_roundtrip (fun _ => (0 : ℕ)) .getRange [2, 0, 1, 0] (by norm_num)⟩

/-! ### C4: concatenated frames plus a trailing partial frame -/

/-- The byte stream formed by a list of inbound frames. -/
def concatFrames (frames : List (MessageType × List ℕ)) : List ℕ :=
  (frames.map fun fr => buildInboundMessage fr.1 fr.2).flatten

/-- Well-formed frames are parsed in sequence, and a trailing proper prefix
of a frame is left unconsumed, for any budget at least the number of
frames. -/
theorem parseAux_concat (f32 : ℚ → ℕ)
    {frames : List (MessageType × List ℕ)} {msgs : List Message}
    (hf : List.Forall₂
      (fun fr m => 9 + fr.2.length < 16777216 ∧ parseMessage f32 fr.1 fr.2 = .ok m)
      frames msgs) :
    ∀ (budget : ℕ) (t2 : MessageType) (p2 : List ℕ) (k : ℕ),
      k < (buildInboundMessage t2 p2).length → 9 + p2.length < 16777216 →
      frames.length ≤ budget →
      parseMessagesAux f32 budget (concatFrames frames ++ (buildInboundMessage t2 p2).take k) =
        .ok ((buildInboundMessage t2 p2).take k, msgs) := by
  induction hf with
  | nil =>
      intro budget t2 p2 k hk hlen2 _
      rw [show concatFrames [] ++ (buildInboundMessage t2 p2).take k =
        (buildInboundMessage t2 p2).take k by simp [concatFrames]]
      exact parseAux_partial f32 budget t2 p2 k hk hlen2
  | cons hfr htail ih =>
      intro budget t2 p2 k hk hlen2 hb
      obtain ⟨hlen, hok⟩ := hfr
      rename_i fr m frs ms
      have hconcat : concatFrames (fr :: frs) ++ (buildInboundMessage t2 p2).take k =
          buildInboundMessage fr.1 fr.2 ++
            (concatFrames frs ++ (buildInboundMessage t2 p2).take k) := by
        simp [concatFrames]
      rw [hconcat, parseAux_frame f32 fr.1 fr.2 _ budget hlen, hok]
      dsimp only
      by_cases hb1 : budget ≤ 1
      · have hfrs : frs.length = 0 := by
          have := List.length_cons fr frs ▸ hb
          omega
        have hmsnil : ms = [] := by
          have hlen_eq := htail.length_eq
          rw [List.length_eq_zero.mp hfrs] at hlen_eq
          exact (List.length_eq_zero.mp hlen_eq.symm)
        rw [if_pos hb1]
        rw [List.length_eq_zero.mp hfrs] at hconcat ⊢
        subst hmsnil
        simp [concatFrames]
      · rw [if_neg hb1, ih (budget - 1) t2 p2 k hk hlen2 (by
          have := List.length_cons fr frs ▸ hb
          omega)]

/-- C4: for every list of well-formed inbound frames (each carrying a
payload its per-type parser accepts) and every trailing byte sequence that
is a proper prefix of another well-formed frame, decoding the concatenation
with a message cap of at least the number of frames yields exactly the
frames' messages in order and returns the trailing partial frame unconsumed
as the remainder. -/
theorem parse_concatenated_frames (f32 : ℚ → ℕ)
    (frames : List (MessageType × List ℕ)) (msgs : List Message)
    (t2 : MessageType) (p2 : List ℕ) (k maxMessages : ℕ)
    (hf : List.Forall₂
      (fun fr m => 9 + fr.2.length < 16777216 ∧ parseMessage f32 fr.1 fr.2 = .ok m)
      frames msgs)
    (hk : k < (buildInboundMessage t2 p2).length)
    (hlen2 : 9 + p2.length < 16777216)
    (hbudget : frames.length ≤ maxMessages) :
    msgs.length = frames.length ∧
    parseMessages f32 (concatFrames frames ++ (buildInboundMessage t2 p2).take k)
        maxMessages =
      .ok ((buildInboundMessage t2 p2).take k, msgs) :=
  ⟨hf.length_eq.symm, parseAux_concat f32 hf maxMessages t2 p2 k hk hlen2 hbudget⟩

/-- Witness for `parse_concatenated_frames` at a concrete input: two frames
(a device-id response and a stop acknowledgment) followed by the first 7
bytes of a range response. -/
theorem parse_concatenated_frames_witness :
    List.Forall₂
      (fun (fr : MessageType × List ℕ) (m : Message) =>
        9 + fr.2.length < 16777216 ∧ parseMessage (fun _ => (0 : ℕ)) fr.1 fr.2 = .ok m)
      [(.getDeviceId, [72, 73]), (.stop, [])]
      [⟨.getDeviceId, .deviceId [72, 73]⟩, ⟨.stop, .typeOnly⟩] ∧
    7 < (buildInboundMessage .getRange [1, 2, 3, 4]).length ∧
    9 + ([1, 2, 3, 4] : List ℕ).length < 16777216 ∧
    ([((MessageType.getDeviceId : MessageType), ([72, 73] : List ℕ)), (.stop, [])]).length ≤ 2 ∧
    (([⟨.getDeviceId, .deviceId [72, 73]⟩, ⟨.stop, .typeOnly⟩] : List Message).length =
        ([((MessageType.getDeviceId : MessageType), ([72, 73] : List ℕ)), (.stop, [])]).length ∧
      parseMessages (fun _ => (0 : ℕ))
          (concatFrames [(.getDeviceId, [72, 73]), (.stop, [])] ++
            (buildInboundMessage .getRange [1, 2, 3, 4]).take 7) 2 =
        .ok ((buildInboundMessage .getRange [1, 2, 3, 4]).take 7,
          [⟨.getDeviceId, .deviceId [72, 73]⟩, ⟨.stop, .typeOnly⟩])) := by
  refine ⟨?_, ?_, ?_, ?_, ?_⟩
  · exact List.Forall₂.cons ⟨by norm_num, rfl⟩
      (List.Forall₂.cons ⟨by norm_num, rfl⟩ List.Forall₂.nil)
  · rw [buildInboundMessage_length]; norm_num
  · norm_num
  · norm_num
  · exact parse_concatenated_frames (fun _ => (0 : ℕ))
      [(.getDeviceId, [72, 73]), (.stop, [])]
      [⟨.getDeviceId, .deviceId [72, 73]⟩, ⟨.stop, .typeOnly⟩]
      .getRange [1, 2, 3, 4] 7 2
      (List.Forall₂.cons ⟨by norm_num, rfl⟩
        (List.Forall₂.cons ⟨by norm_num, rfl⟩ List.Forall₂.nil))
      (by rw [buildInboundMessage_length]; norm_num)
      (by norm_num)
      (by norm_num)

/-! ### C3: single-byte corruption of a well-formed frame -/

theorem calculateChecksum_eq_mod (l : List ℕ) : calculateChecksum l = l.sum % 256 :=
  Nat.and_pow_two_sub_one_eq_mod l.sum 8

/-- Replacing one element changes the sum by the difference of the bytes. -/
theorem sum_set_add (l : List ℕ) (i b : ℕ) (hi : i < l.length) :
    (l.set i b).sum + l.getD i 0 = l.sum + b := by
  induction l generalizing i with
  | nil => simp at hi
  | cons a l ih =>
      cases i with
      | zero => simp [List.getD]; omega
      | succ j =>
          have hj : j < l.length := by simpa using hi
          have := ih j hj
          simp only [List.set_cons_succ, List.sum_cons, List.getD_cons_succ]
          omega

/-- Corrupting any single byte of a well-formed inbound frame outside the
3-byte length field makes the parsing step fail with some raised error, and
with the checksum error exactly when the corrupted byte lies between the
type byte and the checksum byte (inclusive). -/
theorem parseStep_corrupt (f32 : ℚ → ℕ) (t : MessageType) (p : List ℕ) (i b : ℕ)
    (hp : ∀ x ∈ p, x < 256) (hlen : 9 + p.length < 16777216)
    (hi : i < (buildInboundMessage t p).length) (hout : i < 2 ∨ 5 ≤ i)
    (hb : b < 256) (hne : b ≠ (buildInboundMessage t p).getD i 0) :
    ∃ e, parseStep f32 ((buildInboundMessage t p).set i b) = .fail e ∧
      (5 ≤ i → i ≤ 6 + p.length → e = "Invalid checksum") := by
  have hFr : buildInboundMessage t p = buildInboundMessage t p ++ [] := by simp
  have hlenF : (buildInboundMessage t p).length = 9 + p.length :=
    buildInboundMessage_length t p
  have htake2 : (buildInboundMessage t p).take 2 = [0xCC, 0x81] := by
    rw [hFr, frame_take2]
  have hiL : i < 9 + p.length := by omega
  have hlen5 : 5 ≤ ((buildInboundMessage t p).set i b).length := by
    rw [List.length_set]; omega
  rcases hout with hi2 | hi5
  · -- corrupted magic byte: framing error
    refine ⟨"Invalid start bytes", ?_, by omega⟩
    have hmagic : ((buildInboundMessage t p).set i b).take 2 ≠ [0xCC, 0x81] := by
      rw [List.set_take, htake2]
      interval_cases i
      · have h0 : (buildInboundMessage t p).getD 0 0 = 0xCC := by
          have h00 : 0 < (buildInboundMessage t p).length := by omega
          have h0t : 0 < ((buildInboundMessage t p).take 2).length := by
            simp [List.length_take]
            omega
          rw [List.getD_eq_getElem _ _ h00,
            show (buildInboundMessage t p)[0] =
              ((buildInboundMessage t p).take 2)[0]
              from (List.getElem_take _ ).symm]
          simp [htake2]
        rw [h0] at hne
        simp [List.set]
        omega
      · have h1 : (buildInboundMessage t p).getD 1 0 = 0x81 := by
          have h11 : 1 < (buildInboundMessage t p).length := by omega
          have h1t : 1 < ((buildInboundMessage t p).take 2).length := by
            simp [List.length_take]
            omega
          rw [List.getD_eq_getElem _ _ h11,
            show (buildInboundMessage t p)[1] =
              ((buildInboundMessage t p).take 2)[1]
              from (List.getElem_take _ ).symm]
          simp [htake2]
        rw [h1] at hne
        simp [List.set]
        omega
    unfold parseStep
    rw [if_pos hlen5, if_neg hmagic]
  · -- corrupted at or after the type byte
    have htake2' : ((buildInboundMessage t p).set i b).take 2 = [0xCC, 0x81] := by
      rw [List.set_take, htake2, List.set_eq_of_length_le (by simp; omega)]
    have hfield' : fromBytesLE ((((buildInboundMessage t p).set i b).drop 2).take 3) =
        9 + p.length := by
      rw [List.drop_set, if_neg (by omega), List.set_take,
        List.set_eq_of_length_le (by rw [List.length_take]; simp [hlenF]; omega)]
      rw [hFr, frame_lenfield]
      exact fromBytesLE_toBytesLE 3 _ (by norm_num; omega)
    have hnotshort : ¬ ((buildInboundMessage t p).set i b).length < 9 + p.length := by
      rw [List.length_set]; omega
    have hpreF : (buildInboundMessage t p).take (6 + p.length) = framePre t p := by
      rw [hFr, frame_take_pre]
    have hchkF : (buildInboundMessage t p).getD (6 + p.length) 0 =
        calculateChecksum (framePre t p) := by
      rw [hFr, frame_getD_chk]
    have htermF : (buildInboundMessage t p).drop (7 + p.length) = [13, 10] := by
      rw [hFr, frame_drop_term]
    by_cases hchkregion : i ≤ 6 + p.length
    · -- checksum mismatch
      refine ⟨"Invalid checksum", ?_, fun _ _ => rfl⟩
      have htakeL : ((buildInboundMessage t p).set i b).take (9 + p.length - 3) =
          (framePre t p).set i b := by
        rw [show 9 + p.length - 3 = 6 + p.length by omega, List.set_take, hpreF]
      have hmismatch :
          calculateChecksum (((buildInboundMessage t p).set i b).take (9 + p.length - 3)) ≠
            ((buildInboundMessage t p).set i b).getD (9 + p.length - 3) 0 := by
        rw [htakeL, show 9 + p.length - 3 = 6 + p.length by omega]
        by_cases hichk : i = 6 + p.length
        · -- the checksum byte itself was corrupted
          subst hichk
          rw [List.set_eq_of_length_le (by rw [framePre_length])]
          have hstored : ((buildInboundMessage t p).set (6 + p.length) b).getD
              (6 + p.length) 0 = b := by
            have hbd : 6 + p.length <
                ((buildInboundMessage t p).set (6 + p.length) b).length := by
              rw [List.length_set]; omega
            rw [List.getD_eq_getElem _ _ hbd, List.getElem_set_self]
          rw [hstored]
          rw [hchkF] at hne
          exact fun hcontra => hne hcontra.symm
        · -- a byte protected by the checksum was corrupted
          have hiFP : i < (framePre t p).length := by rw [framePre_length]; omega
          have hstored : ((buildInboundMessage t p).set i b).getD (6 + p.length) 0 =
              calculateChecksum (framePre t p) := by
            have hbd : 6 + p.length < ((buildInboundMessage t p).set i b).length := by
              rw [List.length_set]; omega
            have hbd2 : 6 + p.length < (buildInboundMessage t p).length := by omega
            rw [List.getD_eq_getElem _ _ hbd, List.getElem_set_ne (by omega),
              ← List.getD_eq_getElem _ 0 hbd2, hchkF]
          rw [hstored]
          have hsum := sum_set_add (framePre t p) i b hiFP
          have htakegetD : ((buildInboundMessage t p).take (6 + p.length)).getD i 0 =
              (buildInboundMessage t p).getD i 0 := by
            rw [List.getD_eq_getElem _ _ (by rw [List.length_take]; omega),
              List.getD_eq_getElem _ _ (show i < (buildInboundMessage t p).length by omega)]
            exact List.getElem_take _
          have hgetD : (framePre t p).getD i 0 = (buildInboundMessage t p).getD i 0 := by
            rw [← hpreF, htakegetD]
          have hFi : (buildInboundMessage t p).getD i 0 < 256 := by
            have hbd2 : i < (buildInboundMessage t p).length := by omega
            rw [List.getD_eq_getElem _ _ hbd2]
            exact buildInboundMessage_lt t p hp _ (List.getElem_mem hbd2)
          rw [calculateChecksum_eq_mod, calculateChecksum_eq_mod]
          rw [hgetD] at hsum
          intro hcontra
          have hne' : (buildInboundMessage t p).getD i 0 ≠ b := fun h => hne h.symm
          omega
      unfold parseStep
      rw [if_pos hlen5, if_pos htake2']
      simp only [hfield']
      rw [if_neg hnotshort, if_pos hmismatch]
    · -- corrupted terminator byte: end-bytes error
      refine ⟨"Invalid end bytes", ?_, by omega⟩
      have hchkok :
          ¬ (calculateChecksum (((buildInboundMessage t p).set i b).take (9 + p.length - 3)) ≠
            ((buildInboundMessage t p).set i b).getD (9 + p.length - 3) 0) := by
        rw [not_not, show 9 + p.length - 3 = 6 + p.length by omega, List.set_take, hpreF,
          List.set_eq_of_length_le (by rw [framePre_length]; omega)]
        have hbd : 6 + p.length < ((buildInboundMessage t p).set i b).length := by
          rw [List.length_set]; omega
        have hbd2 : 6 + p.length < (buildInboundMessage t p).length := by omega
        rw [List.getD_eq_getElem _ _ hbd, List.getElem_set_ne (by omega),
          ← List.getD_eq_getElem _ 0 hbd2, hchkF]
      have hgetFi : (buildInboundMessage t p).getD i 0 =
          ([13, 10] : List ℕ).getD (i - (7 + p.length)) 0 := by
        have hbd2 : i < (buildInboundMessage t p).length := by omega
        have hstep : (buildInboundMessage t p).getD i 0 =
            ((buildInboundMessage t p).drop (7 + p.length)).getD (i - (7 + p.length)) 0 := by
          rw [List.getD_eq_getElem _ _ hbd2,
            List.getD_eq_getElem _ _ (by rw [List.length_drop]; omega),
            List.getElem_drop]
          congr 1
          omega
        rw [hstep, htermF]
      have hterm' : (((buildInboundMessage t p).set i b).drop (9 + p.length - 2)).take 2 ≠
          [13, 10] := by
        rw [show 9 + p.length - 2 = 7 + p.length by omega, List.drop_set,
          if_neg (by omega), htermF]
        rcases (show i = 7 + p.length ∨ i = 8 + p.length by omega) with hiv | hiv
        · subst hiv
          rw [show 7 + p.length - (7 + p.length) = 0 by omega] at hgetFi ⊢
          simp only [List.getD_cons_zero] at hgetFi
          rw [hgetFi] at hne
          simpa [List.set] using hne
        · subst hiv
          rw [show 8 + p.length - (7 + p.length) = 1 by omega] at hgetFi ⊢
          simp only [List.getD_cons_succ, List.getD_cons_zero] at hgetFi
          rw [hgetFi] at hne
          simpa [List.set] using hne
      unfold parseStep
      rw [if_pos hlen5, if_pos htake2']
      simp only [hfield']
      rw [if_neg hnotshort, if_neg hchkok, if_pos hterm']

/-- C3 counterexample: corrupting a single byte of a well-formed inbound
frame can make decoding return a message rather than fail.  The frame is a
STOP frame with an 11-byte payload crafted so that lowering the length
field's low byte from 20 to 14 exposes a shorter buffer slice whose checksum
byte and terminator happen to verify: decoding then succeeds and returns a
(mis-parsed) STOP message, refuting "decoding fails, never returns a
message" — and a fortiori "fails with the checksum-specific error". -/
theorem corrupted_frame_counterexample :
    (buildInboundMessage .stop [0, 0, 0, 0, 0, 95, 13, 10, 0, 0, 0]).getD 2 0 = 20 ∧
    (14 : ℕ) ≠ 20 ∧
    parseMessages (fun _ => 0)
        ((buildInboundMessage .stop [0, 0, 0, 0, 0, 95, 13, 10, 0, 0, 0]).set 2 14) 1 =
      .ok ([0, 0, 0, 219, 13, 10], [⟨.stop, .typeOnly⟩]) :=
  ⟨rfl, by norm_num, rfl⟩

/-- C3 (amended): corrupting any single byte of a well-formed inbound frame
*outside the 3-byte length field* (bytes 2-4) to a different byte value
makes decoding fail with a raised error — never a silent misparse — and with
the checksum-specific error `"Invalid checksum"` exactly when the corrupted
byte lies in the checksum-protected, length-independent region from the type
byte through the checksum byte.  (Corrupting a length byte can instead
produce a successful mis-parse, see the counterexample.) -/
theorem corrupted_frame_fails (f32 : ℚ → ℕ) (t : MessageType) (p : List ℕ) (i b : ℕ)
    (hp : ∀ x ∈ p, x < 256) (hlen : 9 + p.length < 16777216)
    (hi : i < (buildInboundMessage t p).length) (hout : i < 2 ∨ 5 ≤ i)
    (hb : b < 256) (hne : b ≠ (buildInboundMessage t p).getD i 0) :
    ∃ e, parseMessages f32 ((buildInboundMessage t p).set i b) 1 = .error e ∧
      (5 ≤ i → i ≤ 6 + p.length → e = "Invalid checksum") := by
  obtain ⟨e, hstep, hspec⟩ := parseStep_corrupt f32 t p i b hp hlen hi hout hb hne
  refine ⟨e, ?_, hspec⟩
  rw [parseMessages, parseMessagesAux, hstep]

/-- Witness for `corrupted_frame_fails` at a concrete input: flipping the
payload byte `7` of a GET_DEVICE_ID frame to `8` yields the checksum
error. -/
theorem corrupted_frame_fails_witness :
    (∀ x ∈ ([7] : List ℕ), x < 256) ∧
    9 + ([7] : List ℕ).length < 16777216 ∧
    6 < (buildInboundMessage .getDeviceId [7]).length ∧
    ((6 : ℕ) < 2 ∨ 5 ≤ 6) ∧
    (8 : ℕ) < 256 ∧
    (8 : ℕ) ≠ (buildInboundMessage .getDeviceId [7]).getD 6 0 ∧
    (∃ e, parseMessages (fun _ => (0 : ℕ))
        ((buildInboundMessage .getDeviceId [7]).set 6 8) 1 = .error e ∧
      (5 ≤ 6 → 6 ≤ 6 + ([7] : List ℕ).length → e = "Invalid checksum")) := by
  refine ⟨by norm_num, by norm_num, ?_, by norm_num, by norm_num, ?_, ?_⟩
  · rw [buildInboundMessage_length]; norm_num
  · decide
  · exact corrupted_frame_fails (fun _ => (0 : ℕ)) .getDeviceId [7] 6 8
      (by norm_num) (by norm_num)
      (by rw [buildInboundMessage_length]; norm_num) (by norm_num)
      (by norm_num) (by decide)

/-! ### C9: the cached wavelength range (spectrometer.py lines 178-190) -/

/-- Python's `range(start, stop)` object as cached in
`Spectrometer.wavelength_range`. -/
structure PyRange where
  start : ℕ
  stop : ℕ
deriving DecidableEq, Repr

/-- `Spectrometer.get_range` (spectrometer.py line 178) reads
`response["start_wavelength"]` and `response["end_wavelength"]` from the
parsed GET_RANGE response and stores `range(start, stop)` exactly as
carried, with no reordering or validation. -/
def getRangeOfMessage (m : Message) : Option PyRange :=
  match m.fields with
  | .range s e => some ⟨s, e⟩
  | _ => none

/-- C9 counterexample: a GET_RANGE response carrying the 16-bit values
start = 2, end = 1 (payload bytes `02 00 01 00`) parses successfully, and
`get_range` then stores `range(2, 1)`, whose `stop` is strictly below its
`start`: the code never enforces `stop ≥ start`. -/
theorem get_range_counterexample :
    parseMessage (fun _ => 0) .getRange [2, 0, 1, 0] =
      .ok ⟨.getRange, .range 2 1⟩ ∧
    getRangeOfMessage ⟨.getRange, .range 2 1⟩ = some ⟨2, 1⟩ ∧
    ¬ ((2 : ℕ) ≤ 1) :=
  ⟨rfl, rfl, by norm_num⟩

/-- C9 (amended): `get_range` stores exactly
`range(start_wavelength, end_wavelength)` as carried by the response's two
little-endian 16-bit fields; `stop ≥ start` holds precisely when the
response carries `end_wavelength ≥ start_wavelength`. -/
theorem get_range_stores_response (f32 : ℚ → ℕ) (a b c d : ℕ) :
    parseMessage f32 .getRange [a, b, c, d] =
      .ok ⟨.getRange, .range (a + 256 * b) (c + 256 * d)⟩ ∧
    ∀ r : PyRange,
      getRangeOfMessage ⟨.getRange, .range (a + 256 * b) (c + 256 * d)⟩ = some r →
      (r.start ≤ r.stop ↔ a + 256 * b ≤ c + 256 * d) := by
  constructor
  · simp [parseMessage, fromBytesLE]
  · intro r hr
    simp only [getRangeOfMessage, Option.some_inj] at hr
    subst hr
    exact Iff.rfl

/-! ### SlidingMax (common.py lines 38-81)

The deque is a `List (ℚ × ℚ)` of (timestamp, value) pairs, front first.
`time.time()` is an effect: the timestamp of each `add` is an explicit
input, and the claims' monotonic-time assumption is a hypothesis. -/

/-- `while l and pred(l[-1]): l.pop()` — drop elements from the back while
they satisfy `pred`. -/
def dropBackWhile (pred : α → Bool) (l : List α) : List α :=
  (l.reverse.dropWhile pred).reverse

/-- `SlidingMax._remove_expired_entries` (common.py line 73): pop entries
from the front whose timestamp is at or before `current_time - window_size`. -/
def removeExpiredEntries (w currentTime : ℚ) (dq : List (ℚ × ℚ)) : List (ℚ × ℚ) :=
  dq.dropWhile (fun e => decide (e.1 ≤ currentTime - w))

/-- `SlidingMax.add` (common.py line 58): drop expired entries, pop trailing
entries with value ≤ the new value, append the new entry, and return
`deque[0][1] if deque else None` together with the new deque. -/
def slidingMaxAdd (w : ℚ) (dq : List (ℚ × ℚ)) (timestamp value : ℚ) :
    List (ℚ × ℚ) × Option ℚ :=
  let dq1 := removeExpiredEntries w timestamp dq
  let dq2 := dropBackWhile (fun e => decide (e.2 ≤ value)) dq1
  let dq3 := dq2 ++ [(timestamp, value)]
  (dq3, dq3.head?.map Prod.snd)

/-- The deque after a sequence of `add`s starting from the fresh (empty)
deque. -/
def slidingMaxState (w : ℚ) (hist : List (ℚ × ℚ)) : List (ℚ × ℚ) :=
  hist.foldl (fun dq e => (slidingMaxAdd w dq e.1 e.2).1) []

/-- The values added within the last `w` seconds of `now`. -/
def windowVals (w now : ℚ) (hist : List (ℚ × ℚ)) : List ℚ :=
  (hist.filter (fun e => decide (now - w < e.1))).map Prod.snd

/-! #### Generic dropWhile lemmas -/

theorem mem_dropWhile_of_not (p : α → Bool) (l : List α) (e : α)
    (hmem : e ∈ l) (hne : p e = false) : e ∈ l.dropWhile p := by
  induction l with
  | nil => simp at hmem
  | cons a l ih =>
      rw [List.dropWhile_cons]
      by_cases hpa : p a = true
      · simp only [hpa, if_true]
        rcases List.mem_cons.mp hmem with rfl | hmem'
        · rw [hpa] at hne; simp at hne
        · exact ih hmem'
      · simp only [Bool.not_eq_true] at hpa
        rw [hpa, if_neg Bool.false_ne_true]
        exact hmem

theorem pred_of_dropped (p : α → Bool) (l : List α) (e : α)
    (hmem : e ∈ l) (hnot : e ∉ l.dropWhile p) : p e = true := by
  by_cases h : p e = true
  · exact h
  · simp only [Bool.not_eq_true] at h
    exact absurd (mem_dropWhile_of_not p l e hmem h) hnot

theorem dropWhile_all_gt (f : α → ℚ) (c : ℚ) (l : List α)
    (hsort : l.Pairwise (fun a b => f a ≤ f b)) :
    ∀ e ∈ l.dropWhile (fun x => decide (f x ≤ c)), c < f e := by
  induction l with
  | nil => simp
  | cons a l ih =>
      rw [List.dropWhile_cons]
      by_cases hpa : f a ≤ c
      · rw [decide_eq_true hpa, if_pos rfl]
        exact ih (hsort.of_cons)
      · rw [decide_eq_false hpa, if_neg Bool.false_ne_true]
        intro e he
        rcases List.mem_cons.mp he with rfl | he'
        · linarith [not_le.mp hpa]
        · have := (List.pairwise_cons.mp hsort).1 e he'
          have hca := not_le.mp hpa
          linarith

/-! #### dropBackWhile lemmas -/

theorem dropBackWhile_sublist (p : α → Bool) (l : List α) :
    (dropBackWhile p l).Sublist l := by
  have h := (List.dropWhile_sublist (l := l.reverse) (p := p)).reverse
  simpa [dropBackWhile] using h

theorem mem_of_mem_dropBackWhile (p : α → Bool) (l : List α) (e : α)
    (h : e ∈ dropBackWhile p l) : e ∈ l :=
  (dropBackWhile_sublist p l).mem h

theorem pred_of_dropped_back (p : α → Bool) (l : List α) (e : α)
    (hmem : e ∈ l) (hnot : e ∉ dropBackWhile p l) : p e = true := by
  apply pred_of_dropped p l.reverse e (List.mem_reverse.mpr hmem)
  intro hcontra
  exact hnot (by simpa [dropBackWhile] using hcontra)

theorem dropBackWhile_val_gt (v : ℚ) (l : List (ℚ × ℚ))
    (hdec : l.Pairwise (fun a b => b.2 < a.2)) :
    ∀ e ∈ dropBackWhile (fun e => decide (e.2 ≤ v)) l, v < e.2 := by
  intro e he
  have hrev : l.reverse.Pairwise (fun a b => a.2 ≤ b.2) := by
    rw [List.pairwise_reverse]
    exact hdec.imp (fun h => le_of_lt h)
  have he' : e ∈ l.reverse.dropWhile (fun e => decide (e.2 ≤ v)) := by
    simpa [dropBackWhile] using he
  exact dropWhile_all_gt Prod.snd v l.reverse hrev e he'

/-- The monotonic-deque invariant of `SlidingMax` after the last `add` at
time `lastTs`, relating the deque to the full history of processed
entries. -/
def SMInv (w lastTs : ℚ) (processed dq : List (ℚ × ℚ)) : Prop :=
  (∀ e ∈ dq, e ∈ processed) ∧
  (∀ e ∈ dq, lastTs - w < e.1) ∧
  (∀ e ∈ processed, e.1 ≤ lastTs) ∧
  dq.Pairwise (fun a b => a.1 ≤ b.1) ∧
  dq.Pairwise (fun a b => b.2 < a.2) ∧
  (∀ e ∈ processed, lastTs - w < e.1 → ∃ d ∈ dq, e.1 ≤ d.1 ∧ e.2 ≤ d.2)

theorem SMInv_step (w lastTs t v : ℚ) (processed dq : List (ℚ × ℚ))
    (hw : 0 < w) (hinv : SMInv w lastTs processed dq) (hts : lastTs ≤ t) :
    SMInv w t (processed ++ [(t, v)]) (slidingMaxAdd w dq t v).1 := by
  obtain ⟨hmem, hwin, hbound, hsortT, hsortV, hdom⟩ := hinv
  set dq1 := removeExpiredEntries w t dq with hdq1
  set dq2 := dropBackWhile (fun e => decide (e.2 ≤ v)) dq1 with hdq2
  have hdq1_sub : dq1.Sublist dq := List.dropWhile_sublist _
  have hdq2_sub1 : dq2.Sublist dq1 := dropBackWhile_sublist _ _
  have hdq2_sub : dq2.Sublist dq := hdq2_sub1.trans hdq1_sub
  have hdq2_mem : ∀ e ∈ dq2, e ∈ dq := fun e he => hdq2_sub.mem he
  have hdq1_win : ∀ e ∈ dq1, t - w < e.1 :=
    dropWhile_all_gt Prod.fst (t - w) dq hsortT
  have hdq2_win : ∀ e ∈ dq2, t - w < e.1 := fun e he => hdq1_win e (hdq2_sub1.mem he)
  have hdq2_sortT : dq2.Pairwise (fun a b => a.1 ≤ b.1) := hsortT.sublist hdq2_sub
  have hdq2_sortV : dq2.Pairwise (fun a b => b.2 < a.2) := hsortV.sublist hdq2_sub
  have hdq2_gtv : ∀ e ∈ dq2, v < e.2 :=
    dropBackWhile_val_gt v dq1 (hsortV.sublist hdq1_sub)
  have hdq2_le_t : ∀ e ∈ dq2, e.1 ≤ t := by
    intro e he
    have := hbound e (hmem e (hdq2_mem e he))
    linarith
  have hfst : (slidingMaxAdd w dq t v).1 = dq2 ++ [(t, v)] := rfl
  rw [hfst]
  refine ⟨?_, ?_, ?_, ?_, ?_, ?_⟩
  · intro e he
    rcases List.mem_append.mp he with he2 | henew
    · exact List.mem_append.mpr (Or.inl (hmem e (hdq2_mem e he2)))
    · exact List.mem_append.mpr (Or.inr henew)
  · intro e he
    rcases List.mem_append.mp he with he2 | henew
    · exact hdq2_win e he2
    · rcases List.mem_singleton.mp henew with rfl
      simp only
      linarith
  · intro e he
    rcases List.mem_append.mp he with hold | henew
    · have := hbound e hold
      linarith
    · rcases List.mem_singleton.mp henew with rfl
      simp only
      linarith
  · rw [List.pairwise_append]
    exact ⟨hdq2_sortT, List.pairwise_singleton _ _,
      fun a ha b hb => by rcases List.mem_singleton.mp hb with rfl; exact hdq2_le_t a ha⟩
  · rw [List.pairwise_append]
    exact ⟨hdq2_sortV, List.pairwise_singleton _ _,
      fun a ha b hb => by rcases List.mem_singleton.mp hb with rfl; exact hdq2_gtv a ha⟩
  · intro e he hew
    rcases List.mem_append.mp he with hold | henew
    · -- an old history entry still in the window is dominated
      have hewold : lastTs - w < e.1 := by linarith
      obtain ⟨d, hd, hdt, hdv⟩ := hdom e hold hewold
      have hd1 : d ∈ dq1 := by
        apply mem_dropWhile_of_not _ _ _ hd
        apply decide_eq_false
        push_neg
        linarith
      by_cases hd2 : d ∈ dq2
      · exact ⟨d, List.mem_append.mpr (Or.inl hd2), hdt, hdv⟩
      · -- d was popped from the back, so its value is at most v:
        -- the new entry dominates e
        have hdv2 : d.2 ≤ v := by
          have := pred_of_dropped_back _ _ _ hd1 hd2
          exact of_decide_eq_true this
        refine ⟨(t, v), List.mem_append.mpr (Or.inr (List.mem_singleton.mpr rfl)), ?_, ?_⟩
        · exact hbound e hold |>.trans hts
        · simp only
          linarith
    · rcases List.mem_singleton.mp henew with rfl
      exact ⟨(t, v), List.mem_append.mpr (Or.inr (List.mem_singleton.mpr rfl)),
        le_refl _, le_refl _⟩

theorem SMInv_fold (w : ℚ) (hw : 0 < w) :
    ∀ (hist : List (ℚ × ℚ)) (processed dq : List (ℚ × ℚ)) (lastTs : ℚ),
      SMInv w lastTs processed dq →
      (∀ e ∈ hist, lastTs ≤ e.1) →
      hist.Pairwise (fun a b => a.1 ≤ b.1) →
      SMInv w (hist.foldl (fun _ e => e.1) lastTs)
        (processed ++ hist)
        (hist.foldl (fun dq e => (slidingMaxAdd w dq e.1 e.2).1) dq) := by
  intro hist
  induction hist with
  | nil =>
      intro processed dq lastTs hinv _ _
      simpa using hinv
  | cons a rest ih =>
      intro processed dq lastTs hinv hge hsorted
      have hstep := SMInv_step w lastTs a.1 a.2 processed dq hw hinv
        (hge a (List.mem_cons_self a rest))
      have ihres := ih (processed ++ [(a.1, a.2)]) (slidingMaxAdd w dq a.1 a.2).1 a.1
        hstep
        (fun e he => (List.pairwise_cons.mp hsorted).1 e he)
        (List.pairwise_cons.mp hsorted).2
      simpa [List.foldl_cons, List.append_assoc] using ihres

theorem SMInv_head_max (w t : ℚ) (hist dq : List (ℚ × ℚ))
    (hinv : SMInv w t hist dq) (hne : dq ≠ []) :
    ∃ m, dq.head?.map Prod.snd = some m ∧ m ∈ windowVals w t hist ∧
      ∀ x ∈ windowVals w t hist, x ≤ m := by
  obtain ⟨hmem, hwin, hbound, hsortT, hsortV, hdom⟩ := hinv
  obtain ⟨h, rest2, rfl⟩ := List.exists_cons_of_ne_nil hne
  refine ⟨h.2, rfl, ?_, ?_⟩
  · rw [windowVals, List.mem_map]
    refine ⟨h, ?_, rfl⟩
    rw [List.mem_filter]
    exact ⟨hmem h (List.mem_cons_self h rest2),
      decide_eq_true (hwin h (List.mem_cons_self h rest2))⟩
  · intro x hx
    rw [windowVals, List.mem_map] at hx
    obtain ⟨e, hef, rfl⟩ := hx
    rw [List.mem_filter] at hef
    obtain ⟨hehist, hew⟩ := hef
    obtain ⟨d, hd, _, hdv⟩ := hdom e hehist (of_decide_eq_true hew)
    have hdh : d.2 ≤ h.2 := by
      rcases List.mem_cons.mp hd with rfl | hd2
      · exact le_refl _
      · exact le_of_lt ((List.pairwise_cons.mp hsortV).1 d hd2)
    linarith

theorem foldl_ts_le (c : ℚ) :
    ∀ (l : List (ℚ × ℚ)) (z : ℚ), z ≤ c → (∀ e ∈ l, e.1 ≤ c) →
      l.foldl (fun _ e => e.1) z ≤ c := by
  intro l
  induction l with
  | nil => intro z hz _; simpa using hz
  | cons a rest ih =>
      intro z _ hall
      rw [List.foldl_cons]
      exact ih a.1 (hall a (List.mem_cons_self a rest))
        (fun e he => hall e (List.mem_cons.mpr (Or.inr he)))

/-- C5: for every sequence of (timestamp, value) additions with positive
window `w` and non-decreasing timestamps, the value returned by each `add`
(here: the last add, performed on the state left by the earlier ones) is
`some` of the maximum of all values whose timestamps lie within the last `w`
seconds of the current timestamp (strictly after `t - w`, matching the
code's `<= cutoff` expiry); in particular, if every earlier entry has aged
out of the window, the add returns exactly the newly added value. -/
theorem sliding_max_window_correct (w : ℚ) (pre : List (ℚ × ℚ)) (t v : ℚ)
    (hw : 0 < w)
    (hmono : (pre ++ [(t, v)]).Pairwise (fun a b => a.1 ≤ b.1)) :
    ∃ m, (slidingMaxAdd w (slidingMaxState w pre) t v).2 = some m ∧
      m ∈ windowVals w t (pre ++ [(t, v)]) ∧
      (∀ x ∈ windowVals w t (pre ++ [(t, v)]), x ≤ m) ∧
      ((∀ e ∈ pre, e.1 ≤ t - w) → m = v) := by
  have hsplit := List.pairwise_append.mp hmono
  have hpre_sorted : pre.Pairwise (fun a b => a.1 ≤ b.1) := hsplit.1
  have hpre_le_t : ∀ e ∈ pre, e.1 ≤ t := by
    intro e he
    have := hsplit.2.2 e he (t, v) (List.mem_singleton.mpr rfl)
    simpa using this
  have hl0 : ∀ e ∈ pre, (pre.headD (t, v)).1 ≤ e.1 := by
    cases pre with
    | nil => simp
    | cons a rest =>
        intro e he
        rcases List.mem_cons.mp he with rfl | he2
        · simp
        · simp only [List.headD_cons]
          exact (List.pairwise_cons.mp hpre_sorted).1 e he2
  have hbase : SMInv w (pre.headD (t, v)).1 [] [] :=
    ⟨by simp, by simp, by simp, List.Pairwise.nil, List.Pairwise.nil, by simp⟩
  have hfold := SMInv_fold w hw pre [] [] (pre.headD (t, v)).1 hbase hl0 hpre_sorted
  rw [List.nil_append] at hfold
  have hLle : pre.foldl (fun _ e => e.1) (pre.headD (t, v)).1 ≤ t := by
    apply foldl_ts_le t pre
    · cases pre with
      | nil => simp
      | cons a rest => exact hpre_le_t a (List.mem_cons_self a rest)
    · exact hpre_le_t
  have hstep := SMInv_step w _ t v pre (slidingMaxState w pre) hw hfold hLle
  have hne3 : (slidingMaxAdd w (slidingMaxState w pre) t v).1 ≠ [] := by
    simp [slidingMaxAdd]
  obtain ⟨m, hm, hmw, hmax⟩ := SMInv_head_max w t (pre ++ [(t, v)]) _ hstep hne3
  refine ⟨m, hm, hmw, hmax, ?_⟩
  intro haged
  have hwv : windowVals w t (pre ++ [(t, v)]) = [v] := by
    rw [windowVals, List.filter_append]
    have h1 : pre.filter (fun e => decide (t - w < e.1)) = [] := by
      rw [List.filter_eq_nil_iff]
      intro e he
      simp only [decide_eq_true_eq, not_lt]
      exact haged e he
    have h2 : ([(t, v)] : List (ℚ × ℚ)).filter (fun e => decide (t - w < e.1)) =
        [(t, v)] := by
      rw [List.filter_singleton,
        show decide (t - w < ((t, v) : ℚ × ℚ).1) = true from
          decide_eq_true (show t - w < t by linarith)]
      rfl
    rw [h1, h2]
    rfl
  rw [hwv] at hmw
  simpa using hmw

/-- Witness for `sliding_max_window_correct` at a concrete input: with
window 5, after an entry at time 100 the add at time 110 has everything aged
out and returns exactly the new value. -/
theorem sliding_max_window_correct_witness :
    (0 : ℚ) < 5 ∧
    List.Pairwise (fun (a b : ℚ × ℚ) => a.1 ≤ b.1) ([(100, 10)] ++ [(110, 3)]) ∧
    (∃ m, (slidingMaxAdd 5 (slidingMaxState 5 [(100, 10)]) 110 3).2 = some m ∧
      m ∈ windowVals 5 110 ([(100, 10)] ++ [(110, 3)]) ∧
      (∀ x ∈ windowVals 5 110 ([(100, 10)] ++ [(110, 3)]), x ≤ m) ∧
      ((∀ e ∈ ([(100, 10)] : List (ℚ × ℚ)), e.1 ≤ 110 - 5) → m = 3)) := by
  refine ⟨by norm_num, ?_, ?_⟩
  · norm_num [List.pairwise_cons]
  · exact sliding_max_window_correct 5 [(100, 10)] 110 3 (by norm_num)
      (by norm_num [List.pairwise_cons])

/-- C10: `SlidingMax.add` (with a positive window size) never returns the
`None` fallback: the new entry is appended just before the return, so the
deque is non-empty and the returned value is `some` of the front of the
deque (the current maximum). -/
theorem sliding_max_add_never_none (w : ℚ) (dq : List (ℚ × ℚ)) (t v : ℚ)
    (hw : 0 < w) :
    (slidingMaxAdd w dq t v).2 ≠ none ∧
    (slidingMaxAdd w dq t v).2 = some (((slidingMaxAdd w dq t v).1.headD (0, 0)).2) := by
  have h : (slidingMaxAdd w dq t v).1 ≠ [] := by simp [slidingMaxAdd]
  obtain ⟨a, l, he⟩ := List.exists_cons_of_ne_nil h
  have hsnd : (slidingMaxAdd w dq t v).2 =
      (slidingMaxAdd w dq t v).1.head?.map Prod.snd := rfl
  rw [hsnd, he]
  simp

/-- Witness for `sliding_max_add_never_none` at a concrete input. -/
theorem sliding_max_add_never_none_witness :
    (0 : ℚ) < 1 ∧
    ((slidingMaxAdd 1 [] 0 5).2 ≠ none ∧
    (slidingMaxAdd 1 [] 0 5).2 = some (((slidingMaxAdd 1 [] 0 5).1.headD (0, 0)).2)) :=
  ⟨by norm_num, sliding_max_add_never_none 1 [] 0 5 (by norm_num)⟩

/-! ### SpectrumAggregator (common.py lines 84-236)

One `FieldState` per tracked field (`spd`, `spd_raw`).  numpy arrays are
`List ℚ` (float64 arithmetic idealised as exact rationals); the per-position
max deques are a `List (List ℚ)`.  A `dict` field value is read through
`list(value.values())`, so the record's `spd` is an association list and its
value array is `spd.map Prod.snd`. -/

/-- `func` (`'avg'` / `'max'`), validated by the `func` setter. -/
inductive AggFunc
  | avg
  | max
deriving DecidableEq, Repr

/-- The string the label annotation prints for `self.func`. -/
def AggFunc.str : AggFunc → String
  | .avg => "avg"
  | .max => "max"

/-- The per-field state: `_buffers[f]`, `_running_sums.get(f)`,
`_max_deques.get(f)` (absent dict keys are `none`). -/
structure FieldState where
  buffer : List (List ℚ)
  runningSum : Option (List ℚ)
  maxDeques : Option (List (List ℚ))
deriving DecidableEq, Repr

/-- The field state right after `__init__`: empty buffer, no running sum,
no max deques. -/
def FieldState.init : FieldState := ⟨[], none, none⟩

/-- `while max_deques[i] and max_deques[i][-1] < val: pop()` then
`append(val)` — push one value onto one position's monotonic deque
(common.py lines 174-176 and 189-191; note the strict `<`). -/
def pushMaxDeque (dq : List ℚ) (val : ℚ) : List ℚ :=
  dropBackWhile (fun x => decide (x < val)) dq ++ [val]

/-- `if max_deques[i] and max_deques[i][0] == val: popleft()` — drop one
front copy when evicting the oldest array (common.py lines 181-183). -/
def popFrontEq (dq : List ℚ) (val : ℚ) : List ℚ :=
  match dq with
  | [] => []
  | h :: tl => if h = val then tl else h :: tl

/-- `for i, val in enumerate(arr): dqs[i] = f dqs[i] val` — apply `f` at
each position of `arr`; deques beyond the array's length stay untouched
(an array longer than the deque list would raise `IndexError` in Python, a
case the equal-length hypotheses of the theorems exclude). -/
def updateEach (f : List ℚ → ℚ → List ℚ) : List (List ℚ) → List ℚ → List (List ℚ)
  | dqs, [] => dqs
  | [], _ :: _ => []
  | dq :: dqs, v :: vs => f dq v :: updateEach f dqs vs

/-- `SpectrumAggregator.add`, the per-field loop body (common.py lines
150-191).  In `avg` mode: create the running sum if absent, evict the
oldest array (subtracting it) when at capacity, append the new array and
add it to the sum.  In `max` mode: build the per-position deques from the
buffered arrays if absent, evict the oldest array (popping equal fronts)
when at capacity, append the new array and push it onto the deques.  The
`[] => ...` eviction sub-cases are unreachable for `1 ≤ wsize` (an empty
buffer is never at capacity; Python would raise on `popleft()`). -/
def addField (op : AggFunc) (wsize : ℕ) (fs : FieldState) (newArray : List ℚ) :
    FieldState :=
  match op with
  | .avg =>
      let sum0 := fs.runningSum.getD (List.replicate newArray.length 0)
      let bs :=
        if wsize ≤ fs.buffer.length then
          match fs.buffer with
          | [] => (([] : List (List ℚ)), sum0)
          | old :: rest => (rest, List.zipWith (· - ·) sum0 old)
        else (fs.buffer, sum0)
      { buffer := bs.1 ++ [newArray],
        runningSum := some (List.zipWith (· + ·) bs.2 newArray),
        maxDeques := fs.maxDeques }
  | .max =>
      let dqs0 :=
        match fs.maxDeques with
        | some dqs => dqs
        | none => fs.buffer.foldl (fun dqs arr => updateEach pushMaxDeque dqs arr)
            (List.replicate newArray.length [])
      let bd :=
        if wsize ≤ fs.buffer.length then
          match fs.buffer with
          | [] => (([] : List (List ℚ)), dqs0)
          | old :: rest => (rest, updateEach popFrontEq dqs0 old)
        else (fs.buffer, dqs0)
      { buffer := bd.1 ++ [newArray],
        runningSum := fs.runningSum,
        maxDeques := some (updateEach pushMaxDeque bd.2 newArray) }

/-- `_agg_op` (common.py lines 195-209): `none` for an empty buffer (or,
in max mode, absent deques).  The `dq[0] if dq else float('-inf')`
fallback for an empty per-position deque has no `ℚ` counterpart; `headD 0`
stands in for it, and the invariants show it is unreachable (each deque is
non-empty whenever the buffer is).  An absent running sum with a non-empty
buffer would raise `KeyError` in Python; it is modelled as `none` and is
likewise unreachable. -/
def aggOpField (op : AggFunc) (fs : FieldState) : Option (List ℚ) :=
  if fs.buffer.length = 0 then none
  else
    match op with
    | .avg =>
        match fs.runningSum with
        | some s => some (s.map (fun x => x / (fs.buffer.length : ℚ)))
        | none => none
    | .max =>
        match fs.maxDeques with
        | none => none
        | some dqs => some (dqs.map (fun dq => dq.headD 0))

/-- The fields of a `Spectrum` record that `SpectrumAggregator` touches:
the `spd` dict (as an association list), the `spd_raw` array and the
`y_axis` label. -/
structure SpectrumRec where
  spd : List (ℕ × ℚ)
  spdRaw : List ℚ
  yAxis : String
deriving DecidableEq, Repr

/-- The aggregator object: `window_size`, `func` and the two tracked field
states. -/
structure AggState where
  windowSize : ℕ
  op : AggFunc
  spd : FieldState
  spdRaw : FieldState
deriving DecidableEq, Repr

/-- `SpectrumAggregator(window_size, func)`: the `window_size` setter (which
requires a positive value, raising `ValueError` otherwise) leaves the empty
buffers, clears the max deques and rebuilds no sums. -/
def initAggregator (wsize : ℕ) (op : AggFunc) : AggState :=
  ⟨wsize, op, FieldState.init, FieldState.init⟩

/-- `_compute_aggregate` (common.py lines 211-230).  The source assigns to
`template.y_axis`, `template.spd_raw` and `template.spd` — `template` being
the very record the caller passed to `add` — and returns that same object;
the record returned here is therefore also the post-call state of the
input record. -/
def computeAggregate (st : AggState) (template : SpectrumRec) : SpectrumRec :=
  let t1 := if template.yAxis = "" ∨ template.yAxis = "counts" then
      { template with yAxis := "Counts" } else template
  if 1 < st.windowSize then
    let t2 := match aggOpField st.op st.spdRaw with
      | some l => { t1 with spdRaw := l }
      | none => t1
    let t3 := match aggOpField st.op st.spd with
      | some l => { t2 with spd := (t2.spd.map Prod.fst).zip l }
      | none => t2
    let bufLen := st.spd.buffer.length
    let ann := if bufLen < st.windowSize then
        " (func: " ++ st.op.str ++ ", win: " ++ toString bufLen ++ "/" ++
          toString st.windowSize ++ ")"
      else
        " (func: " ++ st.op.str ++ ", win: " ++ toString st.windowSize ++ ")"
    { t3 with yAxis := t3.yAxis ++ ann }
  else t1

/-- `SpectrumAggregator.add` (common.py line 148): push the record's two
arrays through the per-field update, then compute the aggregate record
(which the source builds by mutating the input record in place — see
`computeAggregate`). -/
def aggAdd (st : AggState) (r : SpectrumRec) : AggState × SpectrumRec :=
  let st2 : AggState := { st with
    spd := addField st.op st.windowSize st.spd (r.spd.map Prod.snd),
    spdRaw := addField st.op st.windowSize st.spdRaw r.spdRaw }
  (st2, computeAggregate st2 r)

/-- The aggregator state after a sequence of `add`s. -/
def aggFold (st : AggState) (rs : List SpectrumRec) : AggState :=
  rs.foldl (fun s r => (aggAdd s r).1) st

/-! ### C7: the aggregator mutates the input record -/

/-- C7 counterexample: adding a record with `y_axis = "counts"` to a fresh
window-2 averaging aggregator.  `_compute_aggregate` assigns the new label
to `template.y_axis` — `template` being the input record itself — and
returns that same object, so after the call the input record's `y_axis` is
`"Counts (func: avg, win: 1/2)"`, not its original `"counts"`: the input is
mutated in place and the result is not a separate record. -/
theorem aggregator_mutation_counterexample :
    ((aggAdd (initAggregator 2 .avg) ⟨[(5, 3)], [3], "counts"⟩).2).yAxis =
      "Counts (func: avg, win: 1/2)" ∧
    ("counts" : String) ≠ "Counts (func: avg, win: 1/2)" := by
  exact ⟨rfl, by decide⟩

/-- The label produced by `_compute_aggregate` for window sizes above 1:
the (normalised) input label with the func/window annotation appended. -/
theorem computeAggregate_yAxis (st : AggState) (r : SpectrumRec)
    (h : 1 < st.windowSize) :
    (computeAggregate st r).yAxis =
      (if r.yAxis = "" ∨ r.yAxis = "counts" then "Counts" else r.yAxis) ++
      (if st.spd.buffer.length < st.windowSize then
        " (func: " ++ st.op.str ++ ", win: " ++ toString st.spd.buffer.length ++ "/" ++
          toString st.windowSize ++ ")"
      else " (func: " ++ st.op.str ++ ", win: " ++ toString st.windowSize ++ ")") := by
  unfold computeAggregate
  rw [if_pos h]
  cases haggr : aggOpField st.op st.spdRaw <;>
    cases haggs : aggOpField st.op st.spd <;>
    by_cases hy : r.yAxis = "" ∨ r.yAxis = "counts" <;>
    first
    | simp only [haggr, haggs, if_pos hy]
    | simp only [haggr, haggs, if_neg hy]
  all_goals try simp [hy]

/-- Whenever the window is larger than 1, `_compute_aggregate` rewrites the
(input) record's `y_axis`: the annotation is appended, so the resulting
label is strictly longer than the original (after the `counts`/empty
normalisation, whose outputs are also shorter than any annotated label). -/
theorem computeAggregate_changes_yAxis (st : AggState) (r : SpectrumRec)
    (h : 1 < st.windowSize) : (computeAggregate st r).yAxis ≠ r.yAxis := by
  rw [computeAggregate_yAxis st r h]
  intro heq
  have hlen := congrArg String.length heq
  rw [String.length_append] at hlen
  have hf8 : (" (func: " : String).length = 8 := rfl
  have hw7 : (", win: " : String).length = 7 := rfl
  have hs1 : ("/" : String).length = 1 := rfl
  have hp1 : (")" : String).length = 1 := rfl
  have hc6 : ("counts" : String).length = 6 := rfl
  have hC6 : ("Counts" : String).length = 6 := rfl
  have he0 : ("" : String).length = 0 := rfl
  have hann : 0 < (if st.spd.buffer.length < st.windowSize then
        " (func: " ++ st.op.str ++ ", win: " ++ toString st.spd.buffer.length ++ "/" ++
          toString st.windowSize ++ ")"
      else " (func: " ++ st.op.str ++ ", win: " ++ toString st.windowSize ++ ")").length := by
    by_cases hbl : st.spd.buffer.length < st.windowSize <;>
      simp only [hbl, if_true, if_false, String.length_append, hf8] <;>
      omega
  by_cases hy : r.yAxis = "" ∨ r.yAxis = "counts"
  · rw [if_pos hy] at hlen
    rw [hC6] at hlen
    rcases hy with hy | hy <;> rw [hy] at hlen <;> omega
  · rw [if_neg hy] at hlen
    omega

/-- C7 (amended): `SpectrumAggregator.add` returns the input record itself,
mutated: for window sizes above 1 the returned record — which is the
post-call state of the record passed in — carries a `y_axis` different from
the input's original one (the aggregate and annotation are substituted into
the input's fields; no separate copy is made). -/
theorem aggregator_add_mutates_input (st : AggState) (r : SpectrumRec)
    (h : 1 < st.windowSize) : ((aggAdd st r).2).yAxis ≠ r.yAxis := by
  have hrw : (aggAdd st r).2 = computeAggregate
      { st with
        spd := addField st.op st.windowSize st.spd (r.spd.map Prod.snd),
        spdRaw := addField st.op st.windowSize st.spdRaw r.spdRaw } r := rfl
  rw [hrw]
  exact computeAggregate_changes_yAxis _ r (by simpa using h)

/-- Witness for `aggregator_add_mutates_input` at a concrete input. -/
theorem aggregator_add_mutates_input_witness :
    1 < (initAggregator 2 .avg).windowSize ∧
    ((aggAdd (initAggregator 2 .avg) ⟨[(5, 3)], [3], "counts"⟩).2).yAxis ≠
      ("counts" : String) := by
  constructor
  · decide
  · have h := aggregator_add_mutates_input (initAggregator 2 .avg)
      ⟨[(5, 3)], [3], "counts"⟩ (by decide)
    exact h

/-! ### C6: aggregate correctness — helper lemmas -/

theorem zipWith_add_getD : ∀ (a b : List ℚ), a.length = b.length → ∀ i,
    (List.zipWith (· + ·) a b).getD i 0 = a.getD i 0 + b.getD i 0 := by
  intro a
  induction a with
  | nil =>
      intro b hb i
      have : b = [] := List.length_eq_zero.mp hb.symm
      subst this
      simp
  | cons x a ih =>
      intro b hb i
      cases b with
      | nil => simp at hb
      | cons y b =>
          cases i with
          | zero => simp
          | succ j =>
              simp only [List.zipWith_cons_cons, List.getD_cons_succ]
              exact ih b (by simpa using hb) j

theorem zipWith_sub_getD : ∀ (a b : List ℚ), a.length = b.length → ∀ i,
    (List.zipWith (· - ·) a b).getD i 0 = a.getD i 0 - b.getD i 0 := by
  intro a
  induction a with
  | nil =>
      intro b hb i
      have : b = [] := List.length_eq_zero.mp hb.symm
      subst this
      simp
  | cons x a ih =>
      intro b hb i
      cases b with
      | nil => simp at hb
      | cons y b =>
          cases i with
          | zero => simp
          | succ j =>
              simp only [List.zipWith_cons_cons, List.getD_cons_succ]
              exact ih b (by simpa using hb) j

theorem replicate_getD (L i : ℕ) : (List.replicate L (0 : ℚ)).getD i 0 = 0 := by
  induction L generalizing i with
  | zero => simp
  | succ n ih =>
      cases i with
      | zero => simp [List.replicate]
      | succ j => simp only [List.replicate, List.getD_cons_succ]; exact ih j

/-- The column of values at position `i` across a list of arrays. -/
def colOf (i : ℕ) (rows : List (List ℚ)) : List ℚ := rows.map (fun row => row.getD i 0)

/-! #### The avg-mode invariant -/

/-- Invariant of the `avg`-mode field state after adding the arrays in
`added`: the buffer holds the last `w` of them, and the running sum is the
column-wise sum of the buffer (absent before any add). -/
def InvAvg (w L : ℕ) (added : List (List ℚ)) (fs : FieldState) : Prop :=
  fs.buffer = added.drop (added.length - w) ∧
  (added = [] → fs.runningSum = none) ∧
  (added ≠ [] → ∃ s, fs.runningSum = some s ∧ s.length = L ∧
      ∀ i, s.getD i 0 = (colOf i fs.buffer).sum)

theorem InvAvg_init (w L : ℕ) : InvAvg w L [] FieldState.init :=
  ⟨by simp [FieldState.init], fun _ => rfl, fun h => absurd rfl h⟩

theorem addField_avg_inv (w L : ℕ) (hw : 1 ≤ w) (added : List (List ℚ))
    (fs : FieldState) (a : List ℚ) (ha : a.length = L)
    (hrows : ∀ row ∈ added, row.length = L)
    (hinv : InvAvg w L added fs) :
    InvAvg w L (added ++ [a]) (addField .avg w fs a) := by
  obtain ⟨hbuf, hnone, hsome⟩ := hinv
  have hbuflen : fs.buffer.length = added.length - (added.length - w) := by
    rw [hbuf, List.length_drop]
  by_cases hfull : w ≤ fs.buffer.length
  · -- at capacity: the buffer has exactly w ≥ 1 arrays, evict the oldest
    have hk : w ≤ added.length := by omega
    have hlen_w : fs.buffer.length = w := by omega
    have hbne : fs.buffer ≠ [] := by
      intro hcontra
      rw [hcontra] at hlen_w
      simp at hlen_w
      omega
    obtain ⟨old, rest, hcons⟩ := List.exists_cons_of_ne_nil hbne
    have hadded_ne : added ≠ [] := by
      intro hcontra
      rw [hcontra] at hbuf
      simp [hbuf] at hbne
    obtain ⟨s, hs, hslen, hsum⟩ := hsome hadded_ne
    have hrest : rest = added.drop (added.length - w + 1) := by
      have := List.tail_drop added (added.length - w)
      rw [← hbuf, hcons] at this
      simpa using this
    have hold_mem : old ∈ added := by
      have : old ∈ fs.buffer := by rw [hcons]; exact List.mem_cons_self _ _
      rw [hbuf] at this
      exact List.mem_of_mem_drop this
    have hold_len : old.length = L := hrows old hold_mem
    have hstep : addField .avg w fs a =
        { buffer := rest ++ [a],
          runningSum := some (List.zipWith (· + ·)
            (List.zipWith (· - ·) (fs.runningSum.getD (List.replicate a.length 0)) old) a),
          maxDeques := fs.maxDeques } := by
      rw [addField]
      rw [if_pos hfull, hcons]
    refine ⟨?_, ?_, ?_⟩
    · rw [hstep]
      simp only
      rw [List.drop_append_of_le_length (by simp; omega), hrest]
      congr 2
      simp
      omega
    · intro hcontra
      simp at hcontra
    · intro _
      rw [hstep]
      simp only [Option.some.injEq]
      refine ⟨_, rfl, ?_, ?_⟩
      · rw [List.length_zipWith, List.length_zipWith, hs]
        simp only [Option.getD_some]
        rw [hslen, hold_len, ha]
        omega
      · intro i
        rw [hs]
        simp only [Option.getD_some]
        rw [zipWith_add_getD _ _ (by rw [List.length_zipWith, hslen, hold_len, ha]; omega) i,
          zipWith_sub_getD _ _ (by rw [hslen, hold_len]) i,
          hsum i]
        have hcol : colOf i fs.buffer = old.getD i 0 :: colOf i rest := by
          rw [hcons, colOf, List.map_cons]
          rfl
        have hcol2 : colOf i (rest ++ [a]) = colOf i rest ++ [a.getD i 0] := by
          rw [colOf, List.map_append]
          rfl
        rw [hcol, hcol2, List.sum_cons, List.sum_append, List.sum_singleton]
        ring
  · -- below capacity: no eviction
    have hstep : addField .avg w fs a =
        { buffer := fs.buffer ++ [a],
          runningSum := some (List.zipWith (· + ·)
            (fs.runningSum.getD (List.replicate a.length 0)) a),
          maxDeques := fs.maxDeques } := by
      rw [addField]
      rw [if_neg hfull]
    have hknot : added.length < w := by omega
    refine ⟨?_, ?_, ?_⟩
    · rw [hstep]
      simp only
      rw [hbuf]
      have h0 : added.length - w = 0 := by omega
      have h1 : (added ++ [a]).length - w = 0 := by simp; omega
      rw [h0, h1]
      simp
    · intro hcontra
      simp at hcontra
    · intro _
      rw [hstep]
      simp only [Option.some.injEq]
      cases hadded : added with
      | nil =>
          subst hadded
          have hbufnil : fs.buffer = [] := by simpa using hbuf
          rw [hnone rfl]
          refine ⟨_, rfl, ?_, ?_⟩
          · rw [List.length_zipWith]
            simp [ha]
          · intro i
            simp only [Option.getD_none]
            rw [zipWith_add_getD _ _ (by simp) i, replicate_getD]
            rw [hbufnil]
            simp [colOf]
      | cons a0 added0 =>
          obtain ⟨s, hs, hslen, hsum⟩ := hsome (by rw [hadded]; simp)
          rw [hs]
          refine ⟨_, rfl, ?_, ?_⟩
          · rw [List.length_zipWith]
            simp only [Option.getD_some]
            rw [hslen, ha]
            omega
          · intro i
            simp only [Option.getD_some]
            rw [zipWith_add_getD _ _ (by rw [hslen, ha]) i, hsum i]
            have hcol2 : colOf i (fs.buffer ++ [a]) = colOf i fs.buffer ++ [a.getD i 0] := by
              rw [colOf, List.map_append]
              rfl
            rw [hcol2, List.sum_append, List.sum_singleton]

/-! #### The max-mode invariant: one position's deque as a fold of pushes -/

/-- The state of one position's monotonic max-deque after pushing a column
of values in order. -/
def deckOf (col : List ℚ) : List ℚ := col.foldl pushMaxDeque []

theorem deckOf_append (l : List ℚ) (v : ℚ) :
    deckOf (l ++ [v]) = pushMaxDeque (deckOf l) v := by
  rw [deckOf, deckOf, List.foldl_append]
  rfl

theorem deckOf_ne_nil (col : List ℚ) (h : col ≠ []) : deckOf col ≠ [] := by
  induction col using List.reverseRecOn with
  | nil => exact absurd rfl h
  | append_singleton l v _ =>
      rw [deckOf_append, pushMaxDeque]
      simp

theorem mem_pushMaxDeque (dq : List ℚ) (v x : ℚ) (h : x ∈ pushMaxDeque dq v) :
    x ∈ dq ∨ x = v := by
  rw [pushMaxDeque] at h
  rcases List.mem_append.mp h with h1 | h2
  · exact Or.inl (mem_of_mem_dropBackWhile _ _ _ h1)
  · exact Or.inr (List.mem_singleton.mp h2)

theorem pushMaxDeque_of_all_lt (dq : List ℚ) (v : ℚ) (h : ∀ x ∈ dq, x < v) :
    pushMaxDeque dq v = [v] := by
  rw [pushMaxDeque]
  have hnil : dropBackWhile (fun x => decide (x < v)) dq = [] := by
    rw [dropBackWhile, List.dropWhile_eq_nil_iff.mpr, List.reverse_nil]
    intro x hx
    exact decide_eq_true (h x (List.mem_reverse.mp hx))
  rw [hnil]
  rfl

theorem dropBackWhile_cons (p : α → Bool) (a : α) (t : List α) :
    dropBackWhile p (a :: t) =
      match dropBackWhile p t with
      | [] => if p a then [] else [a]
      | r :: rs => a :: r :: rs := by
  have hkey : dropBackWhile p (a :: t) =
      (if (t.reverse.dropWhile p).isEmpty = true then List.dropWhile p [a]
       else t.reverse.dropWhile p ++ [a]).reverse := by
    rw [dropBackWhile, List.reverse_cons, List.dropWhile_append]
  cases hdbt : dropBackWhile p t with
  | nil =>
      have hD : t.reverse.dropWhile p = [] := by
        have h2 : (t.reverse.dropWhile p).reverse = [] := hdbt
        simpa using h2
      rw [hkey, hD]
      simp only [List.isEmpty_nil, if_true]
      by_cases hpa : p a = true
      · rw [List.dropWhile_cons, if_pos hpa]
        simp [hpa]
      · simp only [Bool.not_eq_true] at hpa
        rw [List.dropWhile_cons, hpa]
        simp [hpa]
  | cons r rs =>
      have hDne : t.reverse.dropWhile p ≠ [] := by
        intro hcontra
        rw [dropBackWhile, hcontra] at hdbt
        simp at hdbt
      have hD : (t.reverse.dropWhile p).isEmpty = false := by
        cases hc : t.reverse.dropWhile p with
        | nil => exact absurd hc hDne
        | cons x xs => rfl
      rw [hkey, hD]
      simp only [Bool.false_eq_true, if_false]
      rw [List.reverse_append]
      rw [show (t.reverse.dropWhile p).reverse = dropBackWhile p t from rfl, hdbt]
      rfl

theorem dropBackWhile_headD (p : α → Bool) (t : List α) (d : α)
    (h : dropBackWhile p t ≠ []) : (dropBackWhile p t).headD d = t.headD d := by
  cases t with
  | nil => simp [dropBackWhile] at h
  | cons a t =>
      rw [dropBackWhile_cons] at h ⊢
      cases hdbt : dropBackWhile p t with
      | nil =>
          rw [hdbt] at h
          dsimp only at h ⊢
          by_cases hpa : p a = true
          · rw [if_pos hpa] at h
            exact absurd rfl h
          · rw [if_neg hpa]
            simp
      | cons r rs =>
          dsimp only
          simp

/-- Pushing a value below the front maximum leaves the front in place. -/
theorem push_cons_top (c : ℚ) (d : List ℚ) (v : ℚ) (hv : v ≤ c) :
    pushMaxDeque (c :: d) v = c :: pushMaxDeque d v := by
  rw [pushMaxDeque, pushMaxDeque, dropBackWhile_cons]
  cases hdb : dropBackWhile (fun x => decide (x < v)) d with
  | nil =>
      dsimp only
      rw [if_neg (by simp; linarith)]
      rfl
  | cons r rs => rfl

theorem foldl_push_cons_top (col : List ℚ) (c : ℚ) :
    ∀ d : List ℚ, (∀ x ∈ col, x ≤ c) →
      col.foldl pushMaxDeque (c :: d) = c :: col.foldl pushMaxDeque d := by
  induction col with
  | nil => intro d _; rfl
  | cons v col ih =>
      intro d hall
      rw [List.foldl_cons, List.foldl_cons,
        push_cons_top c d v (hall v (List.mem_cons_self _ _))]
      exact ih _ (fun x hx => hall x (List.mem_cons.mpr (Or.inr hx)))

theorem foldl_push_drop_top (col : List ℚ) :
    ∀ (c : ℚ) (d : List ℚ), (∀ x ∈ d, x ≤ c) → (∃ x ∈ col, c < x) →
      col.foldl pushMaxDeque (c :: d) = col.foldl pushMaxDeque d := by
  induction col with
  | nil =>
      intro c d _ hex
      simp at hex
  | cons v col ih =>
      intro c d hd hex
      rw [List.foldl_cons, List.foldl_cons]
      by_cases hvc : v ≤ c
      · rw [push_cons_top c d v hvc]
        apply ih c (pushMaxDeque d v)
        · intro x hx
          rcases mem_pushMaxDeque d v x hx with h1 | h2
          · exact hd x h1
          · rw [h2]; exact hvc
        · obtain ⟨x, hx, hcx⟩ := hex
          rcases List.mem_cons.mp hx with rfl | hx2
          · exact absurd hcx (by linarith)
          · exact ⟨x, hx2, hcx⟩
      · push_neg at hvc
        have h1 : pushMaxDeque (c :: d) v = [v] := by
          apply pushMaxDeque_of_all_lt
          intro x hx
          rcases List.mem_cons.mp hx with rfl | hx2
          · exact hvc
          · exact lt_of_le_of_lt (hd x hx2) hvc
        have h2 : pushMaxDeque d v = [v] := by
          apply pushMaxDeque_of_all_lt
          intro x hx
          exact lt_of_le_of_lt (hd x hx) hvc
        rw [h1, h2]

theorem exists_not_pred_of_dropBackWhile_ne (p : α → Bool) (t : List α)
    (h : dropBackWhile p t ≠ []) : ∃ x ∈ t, p x = false := by
  by_contra hcontra
  push_neg at hcontra
  apply h
  rw [dropBackWhile, List.dropWhile_eq_nil_iff.mpr, List.reverse_nil]
  intro x hx
  have hne := hcontra x (List.mem_reverse.mp hx)
  cases hb : p x with
  | false => exact absurd hb hne
  | true => rfl

theorem deckOf_subset (col : List ℚ) : ∀ x ∈ deckOf col, x ∈ col := by
  induction col using List.reverseRecOn with
  | nil => simp [deckOf]
  | append_singleton l v ih =>
      intro x hx
      rw [deckOf_append] at hx
      rcases mem_pushMaxDeque _ _ _ hx with h1 | h2
      · exact List.mem_append.mpr (Or.inl (ih x h1))
      · rw [h2]
        exact List.mem_append.mpr (Or.inr (List.mem_singleton.mpr rfl))

/-- The front of the deque is the maximum of the pushed column. -/
theorem deckOf_head_max (col : List ℚ) (h : col ≠ []) :
    (deckOf col).headD 0 ∈ col ∧ ∀ x ∈ col, x ≤ (deckOf col).headD 0 := by
  induction col using List.reverseRecOn with
  | nil => exact absurd rfl h
  | append_singleton l v ih =>
      rw [deckOf_append]
      by_cases hlnil : l = []
      · subst hlnil
        rw [show pushMaxDeque (deckOf []) v = [v] from rfl]
        simp
      · obtain ⟨hmem, hmax⟩ := ih hlnil
        rw [pushMaxDeque]
        cases hdb : dropBackWhile (fun x => decide (x < v)) (deckOf l) with
        | nil =>
            -- every buffered value is below v: v is the new maximum
            have halllt : ∀ x ∈ l, x < v := by
              intro x hx
              have hxle := hmax x hx
              have hhead : (deckOf l).headD 0 < v := by
                have hne := deckOf_ne_nil l hlnil
                obtain ⟨hh, htl, hcons⟩ := List.exists_cons_of_ne_nil hne
                have hhm : hh ∈ deckOf l := by
                  rw [hcons]
                  exact List.mem_cons_self _ _
                have hp := pred_of_dropped_back _ _ _ hhm (by rw [hdb]; simp)
                have := of_decide_eq_true hp
                rw [hcons]
                simpa using this
              linarith
            simp only [List.nil_append, List.headD_cons]
            constructor
            · exact List.mem_append.mpr (Or.inr (List.mem_singleton.mpr rfl))
            · intro x hx
              rcases List.mem_append.mp hx with h1 | h2
              · exact le_of_lt (halllt x h1)
              · rw [List.mem_singleton.mp h2]
        | cons r rs =>
            -- the old maximum survives at the front
            have hne2 : dropBackWhile (fun x => decide (x < v)) (deckOf l) ≠ [] := by
              rw [hdb]; simp
            have hr : r = (deckOf l).headD 0 := by
              have := dropBackWhile_headD (fun x => decide (x < v)) (deckOf l) 0 hne2
              rw [hdb] at this
              simpa using this
            have hvle : v ≤ (deckOf l).headD 0 := by
              obtain ⟨x, hx, hpx⟩ := exists_not_pred_of_dropBackWhile_ne _ _ hne2
              have hxv : ¬ (x < v) := by simpa using hpx
              have hxl : x ∈ l := deckOf_subset l x hx
              have := hmax x hxl
              linarith
            have hhead : ((r :: rs) ++ [v]).headD 0 = r := rfl
            rw [hhead, hr]
            constructor
            · exact List.mem_append.mpr (Or.inl hmem)
            · intro x hx
              rcases List.mem_append.mp hx with h1 | h2
              · exact hmax x h1
              · rw [List.mem_singleton.mp h2]
                exact hvle

/-- Evicting the oldest value pops exactly its (single) front copy:
`popFrontEq` undoes the first push. -/
theorem popFrontEq_deckOf (c : ℚ) (col : List ℚ) :
    popFrontEq (deckOf (c :: col)) c = deckOf col := by
  have hstart : deckOf (c :: col) = col.foldl pushMaxDeque [c] := by
    rw [deckOf, List.foldl_cons]
    rfl
  by_cases hall : ∀ x ∈ col, x ≤ c
  · rw [hstart, foldl_push_cons_top col c [] hall]
    rw [popFrontEq]
    rw [if_pos rfl]
    rfl
  · push_neg at hall
    obtain ⟨x0, hx0, hcx0⟩ := hall
    have hdrop : col.foldl pushMaxDeque [c] = col.foldl pushMaxDeque [] := by
      have := foldl_push_drop_top col c [] (by simp) ⟨x0, hx0, hcx0⟩
      simpa using this
    rw [hstart, hdrop, show col.foldl pushMaxDeque [] = deckOf col from rfl]
    have hcolne : col ≠ [] := by
      intro hcontra
      rw [hcontra] at hx0
      simp at hx0
    obtain ⟨hmem, hmax⟩ := deckOf_head_max col hcolne
    have hne := deckOf_ne_nil col hcolne
    obtain ⟨hh, htl, hcons⟩ := List.exists_cons_of_ne_nil hne
    have hhc : hh ≠ c := by
      have hx0le := hmax x0 hx0
      rw [hcons] at hx0le
      simp only [List.headD_cons] at hx0le
      intro hcontra
      rw [hcontra] at hx0le
      linarith
    rw [hcons, popFrontEq, if_neg hhc]

theorem updateEach_length (f : List ℚ → ℚ → List ℚ) :
    ∀ (dqs : List (List ℚ)) (arr : List ℚ),
      (updateEach f dqs arr).length = dqs.length := by
  intro dqs
  induction dqs with
  | nil => intro arr; cases arr <;> rfl
  | cons dq dqs ih =>
      intro arr
      cases arr with
      | nil => rfl
      | cons v vs => simp [updateEach, ih]

theorem updateEach_getD_lt (f : List ℚ → ℚ → List ℚ) :
    ∀ (dqs : List (List ℚ)) (arr : List ℚ) (i : ℕ),
      i < arr.length → arr.length ≤ dqs.length →
      (updateEach f dqs arr).getD i [] = f (dqs.getD i []) (arr.getD i 0) := by
  intro dqs
  induction dqs with
  | nil =>
      intro arr i hi hlen
      simp only [List.length_nil, Nat.le_zero] at hlen
      omega
  | cons dq dqs ih =>
      intro arr i hi hlen
      cases arr with
      | nil => simp at hi
      | cons v vs =>
          cases i with
          | zero => rfl
          | succ j =>
              simp only [updateEach, List.getD_cons_succ]
              exact ih vs j (by simpa using hi) (by simpa using hlen)

theorem replicate_getD_list (L i : ℕ) :
    (List.replicate L ([] : List ℚ)).getD i [] = [] := by
  induction L generalizing i with
  | zero => simp
  | succ n ih =>
      cases i with
      | zero => simp [List.replicate]
      | succ j => simp only [List.replicate, List.getD_cons_succ]; exact ih j

/-- Invariant of the `max`-mode field state after adding the arrays in
`added`: the buffer holds the last `w` of them, and each position's deque is
the monotonic deque of that position's buffered column (absent before any
add). -/
def InvMax (w L : ℕ) (added : List (List ℚ)) (fs : FieldState) : Prop :=
  fs.buffer = added.drop (added.length - w) ∧
  (added = [] → fs.maxDeques = none) ∧
  (added ≠ [] → ∃ dqs, fs.maxDeques = some dqs ∧ dqs.length = L ∧
      ∀ i, i < L → dqs.getD i [] = deckOf (colOf i fs.buffer))

theorem InvMax_init (w L : ℕ) : InvMax w L [] FieldState.init :=
  ⟨by simp [FieldState.init], fun _ => rfl, fun h => absurd rfl h⟩

theorem addField_max_inv (w L : ℕ) (hw : 1 ≤ w) (added : List (List ℚ))
    (fs : FieldState) (a : List ℚ) (ha : a.length = L)
    (hrows : ∀ row ∈ added, row.length = L)
    (hinv : InvMax w L added fs) :
    InvMax w L (added ++ [a]) (addField .max w fs a) := by
  obtain ⟨hbuf, hnone, hsome⟩ := hinv
  have hbuflen : fs.buffer.length = added.length - (added.length - w) := by
    rw [hbuf, List.length_drop]
  by_cases hadded : added = []
  · -- first add: deques are created from the (empty) buffer and the new array
    subst hadded
    have hbufnil : fs.buffer = [] := by simpa using hbuf
    have hstep : addField .max w fs a =
        { buffer := [a],
          runningSum := fs.runningSum,
          maxDeques := some (updateEach pushMaxDeque
            (List.replicate a.length []) a) } := by
      rw [addField, hnone rfl]
      rw [if_neg (by rw [hbufnil]; simp; omega), hbufnil]
      simp
    refine ⟨?_, by simp, ?_⟩
    · rw [hstep]
      simp only
      have h10 : (([] : List (List ℚ)) ++ [a]).length - w = 0 := by simp; omega
      rw [h10]
      simp
    · intro _
      rw [hstep]
      refine ⟨_, rfl, ?_, ?_⟩
      · rw [updateEach_length, List.length_replicate, ha]
      · intro i hi
        dsimp only
        rw [updateEach_getD_lt _ _ _ i (by omega) (by simp), replicate_getD_list]
        rw [show colOf i [a] = [a.getD i 0] from rfl]
        rfl
  · obtain ⟨dqs, hdqs, hdlen, hdeck⟩ := hsome hadded
    by_cases hfull : w ≤ fs.buffer.length
    · -- at capacity: evict the oldest array, then push the new one
      have hk : w ≤ added.length := by omega
      have hlen_w : fs.buffer.length = w := by omega
      have hbne : fs.buffer ≠ [] := by
        intro hcontra
        rw [hcontra] at hlen_w
        simp at hlen_w
        omega
      obtain ⟨old, rest, hcons⟩ := List.exists_cons_of_ne_nil hbne
      have hrest : rest = added.drop (added.length - w + 1) := by
        have := List.tail_drop added (added.length - w)
        rw [← hbuf, hcons] at this
        simpa using this
      have hold_mem : old ∈ added := by
        have : old ∈ fs.buffer := by rw [hcons]; exact List.mem_cons_self _ _
        rw [hbuf] at this
        exact List.mem_of_mem_drop this
      have hold_len : old.length = L := hrows old hold_mem
      have hstep : addField .max w fs a =
          { buffer := rest ++ [a],
            runningSum := fs.runningSum,
            maxDeques := some (updateEach pushMaxDeque
              (updateEach popFrontEq dqs old) a) } := by
        rw [addField, hdqs]
        rw [if_pos hfull, hcons]
      refine ⟨?_, by simp, ?_⟩
      · rw [hstep]
        simp only
        rw [List.drop_append_of_le_length (by simp; omega), hrest]
        congr 2
        simp
        omega
      · intro _
        rw [hstep]
        refine ⟨_, rfl, ?_, ?_⟩
        · rw [updateEach_length, updateEach_length, hdlen]
        · intro i hi
          dsimp only
          rw [updateEach_getD_lt _ _ _ i (by omega)
              (by rw [updateEach_length, hdlen]; omega),
            updateEach_getD_lt _ _ _ i (by omega) (by rw [hdlen]; omega),
            hdeck i hi, hcons]
          rw [show colOf i (old :: rest) = old.getD i 0 :: colOf i rest from rfl]
          rw [popFrontEq_deckOf]
          rw [show colOf i (rest ++ [a]) = colOf i rest ++ [a.getD i 0] by
            rw [colOf, List.map_append]; rfl]
          rw [deckOf_append]
    · -- below capacity: just push the new array
      have hstep : addField .max w fs a =
          { buffer := fs.buffer ++ [a],
            runningSum := fs.runningSum,
            maxDeques := some (updateEach pushMaxDeque dqs a) } := by
        rw [addField, hdqs]
        rw [if_neg hfull]
      have hknot : added.length < w := by omega
      refine ⟨?_, by simp, ?_⟩
      · rw [hstep]
        simp only
        rw [hbuf]
        have h0 : added.length - w = 0 := by omega
        have h1 : (added ++ [a]).length - w = 0 := by simp; omega
        rw [h0, h1]
        simp
      · intro _
        rw [hstep]
        refine ⟨_, rfl, ?_, ?_⟩
        · rw [updateEach_length, hdlen]
        · intro i hi
          dsimp only
          rw [updateEach_getD_lt _ _ _ i (by omega) (by rw [hdlen]; omega),
            hdeck i hi]
          rw [show colOf i (fs.buffer ++ [a]) = colOf i fs.buffer ++ [a.getD i 0] by
            rw [colOf, List.map_append]; rfl]
          rw [deckOf_append]

theorem InvAvg_foldl (w L : ℕ) (hw : 1 ≤ w) :
    ∀ (rest added : List (List ℚ)) (fs : FieldState),
      (∀ row ∈ added ++ rest, row.length = L) → InvAvg w L added fs →
      InvAvg w L (added ++ rest) (rest.foldl (fun s arr => addField .avg w s arr) fs) := by
  intro rest
  induction rest with
  | nil =>
      intro added fs _ hinv
      simpa using hinv
  | cons a rest ih =>
      intro added fs hrows hinv
      have hstep := addField_avg_inv w L hw added fs a
        (hrows a (by simp)) (fun row hr => hrows row (by simp [hr])) hinv
      have := ih (added ++ [a]) _ (by
        intro row hr
        apply hrows
        simp at hr ⊢
        tauto) hstep
      simpa [List.append_assoc] using this

theorem InvMax_foldl (w L : ℕ) (hw : 1 ≤ w) :
    ∀ (rest added : List (List ℚ)) (fs : FieldState),
      (∀ row ∈ added ++ rest, row.length = L) → InvMax w L added fs →
      InvMax w L (added ++ rest) (rest.foldl (fun s arr => addField .max w s arr) fs) := by
  intro rest
  induction rest with
  | nil =>
      intro added fs _ hinv
      simpa using hinv
  | cons a rest ih =>
      intro added fs hrows hinv
      have hstep := addField_max_inv w L hw added fs a
        (hrows a (by simp)) (fun row hr => hrows row (by simp [hr])) hinv
      have := ih (added ++ [a]) _ (by
        intro row hr
        apply hrows
        simp at hr ⊢
        tauto) hstep
      simpa [List.append_assoc] using this

/-- `aggFold` never changes the window or function, and the two field states
are the per-field folds over the records' arrays. -/
theorem aggFold_fields (st0 : AggState) (rs : List SpectrumRec) :
    (aggFold st0 rs).windowSize = st0.windowSize ∧
    (aggFold st0 rs).op = st0.op ∧
    (aggFold st0 rs).spdRaw = (rs.map (fun r => r.spdRaw)).foldl
        (fun fs arr => addField st0.op st0.windowSize fs arr) st0.spdRaw ∧
    (aggFold st0 rs).spd = (rs.map (fun r => r.spd.map Prod.snd)).foldl
        (fun fs arr => addField st0.op st0.windowSize fs arr) st0.spd := by
  induction rs generalizing st0 with
  | nil => exact ⟨rfl, rfl, rfl, rfl⟩
  | cons r rs ih =>
      have hstate : aggFold st0 (r :: rs) = aggFold (aggAdd st0 r).1 rs := rfl
      obtain ⟨h1, h2, h3, h4⟩ := ih (aggAdd st0 r).1
      rw [hstate]
      refine ⟨h1, h2, ?_, ?_⟩
      · rw [h3]
        rfl
      · rw [h4]
        rfl

/-- The last `n` of a list of arrays. -/
def lastN (n : ℕ) (rows : List (List ℚ)) : List (List ℚ) := rows.drop (rows.length - n)

theorem aggOp_avg_spec (w L : ℕ) (added : List (List ℚ)) (fs : FieldState)
    (hinv : InvAvg w L added fs) (hN : w ≤ added.length) (hw : 1 ≤ w) :
    ∃ l, aggOpField .avg fs = some l ∧ l.length = L ∧
      ∀ i, i < L → l.getD i 0 = (colOf i (lastN w added)).sum / (w : ℚ) := by
  obtain ⟨hbuf, _, hsome⟩ := hinv
  have haddedne : added ≠ [] := by
    intro hcontra
    rw [hcontra] at hN
    simp at hN
    omega
  obtain ⟨s, hs, hslen, hsum⟩ := hsome haddedne
  have hbuflen : fs.buffer.length = w := by
    rw [hbuf, List.length_drop]
    omega
  refine ⟨s.map (fun x => x / (fs.buffer.length : ℚ)), ?_, ?_, ?_⟩
  · rw [aggOpField, if_neg (by omega), hs]
  · rw [List.length_map, hslen]
  · intro i hi
    have hi' : i < (s.map (fun x => x / (fs.buffer.length : ℚ))).length := by
      rw [List.length_map, hslen]; exact hi
    rw [List.getD_eq_getElem _ _ hi', List.getElem_map,
      ← List.getD_eq_getElem s 0 (by rw [hslen]; exact hi), hsum i, hbuflen]
    rw [show lastN w added = fs.buffer by rw [lastN, hbuf]]

theorem aggOp_max_spec (w L : ℕ) (added : List (List ℚ)) (fs : FieldState)
    (hinv : InvMax w L added fs) (hN : w ≤ added.length) (hw : 1 ≤ w) :
    ∃ l, aggOpField .max fs = some l ∧ l.length = L ∧
      ∀ i, i < L → l.getD i 0 ∈ colOf i (lastN w added) ∧
        ∀ y ∈ colOf i (lastN w added), y ≤ l.getD i 0 := by
  obtain ⟨hbuf, _, hsome⟩ := hinv
  have haddedne : added ≠ [] := by
    intro hcontra
    rw [hcontra] at hN
    simp at hN
    omega
  obtain ⟨dqs, hdqs, hdlen, hdeck⟩ := hsome haddedne
  have hbuflen : fs.buffer.length = w := by
    rw [hbuf, List.length_drop]
    omega
  have hlastbuf : lastN w added = fs.buffer := by rw [lastN, hbuf]
  refine ⟨dqs.map (fun dq => dq.headD 0), ?_, ?_, ?_⟩
  · rw [aggOpField, if_neg (by omega), hdqs]
  · rw [List.length_map, hdlen]
  · intro i hi
    have hi' : i < (dqs.map (fun dq => dq.headD 0)).length := by
      rw [List.length_map, hdlen]; exact hi
    rw [List.getD_eq_getElem _ _ hi', List.getElem_map,
      ← List.getD_eq_getElem dqs [] (by rw [hdlen]; exact hi), hdeck i hi]
    have hbufne : fs.buffer ≠ [] := by
      intro hcontra
      rw [hcontra] at hbuflen
      simp at hbuflen
      omega
    have hcolne : colOf i fs.buffer ≠ [] := by
      rw [colOf]
      simpa using hbufne
    rw [hlastbuf]
    exact deckOf_head_max (colOf i fs.buffer) hcolne

theorem computeAggregate_fields_big (st : AggState) (r : SpectrumRec)
    (h : 1 < st.windowSize) (lraw lspd : List ℚ)
    (hraw : aggOpField st.op st.spdRaw = some lraw)
    (hspd : aggOpField st.op st.spd = some lspd) :
    (computeAggregate st r).spdRaw = lraw ∧
    (computeAggregate st r).spd = (r.spd.map Prod.fst).zip lspd := by
  unfold computeAggregate
  rw [if_pos h]
  simp only [hraw, hspd]
  constructor <;> first | trivial | (split_ifs <;> rfl)

theorem computeAggregate_fields_small (st : AggState) (r : SpectrumRec)
    (h : ¬ 1 < st.windowSize) :
    (computeAggregate st r).spdRaw = r.spdRaw ∧
    (computeAggregate st r).spd = r.spd := by
  unfold computeAggregate
  rw [if_neg h]
  constructor <;> (split_ifs <;> rfl)

/-- C6: for a SpectrumAggregator with window size `w ≥ 1` and at least `w`
added records whose arrays all have the same lengths, the aggregate record
reported by the last `add` carries, element-wise, the true mean (func
`avg`) or the true maximum (func `max`) of the last `w` raw arrays — for
the `spd_raw` array and for the `spd` dict's values (whose keys are the
input record's). -/
theorem aggregator_window_correct (w : ℕ) (op : AggFunc) (rs : List SpectrumRec)
    (r : SpectrumRec) (Lr Ls : ℕ) (hw : 1 ≤ w)
    (hraw : ∀ x ∈ rs ++ [r], x.spdRaw.length = Lr)
    (hspd : ∀ x ∈ rs ++ [r], x.spd.length = Ls)
    (hN : w ≤ rs.length + 1) :
    ((aggAdd (aggFold (initAggregator w op) rs) r).2).spdRaw.length = Lr ∧
    ((aggAdd (aggFold (initAggregator w op) rs) r).2).spd.map Prod.fst =
      r.spd.map Prod.fst ∧
    (∀ i, i < Lr →
      (op = .avg →
        ((aggAdd (aggFold (initAggregator w op) rs) r).2).spdRaw.getD i 0 =
          (colOf i (lastN w ((rs ++ [r]).map (fun x => x.spdRaw)))).sum / (w : ℚ)) ∧
      (op = .max →
        ((aggAdd (aggFold (initAggregator w op) rs) r).2).spdRaw.getD i 0 ∈
            colOf i (lastN w ((rs ++ [r]).map (fun x => x.spdRaw))) ∧
          ∀ y ∈ colOf i (lastN w ((rs ++ [r]).map (fun x => x.spdRaw))),
            y ≤ ((aggAdd (aggFold (initAggregator w op) rs) r).2).spdRaw.getD i 0)) ∧
    (∀ i, i < Ls →
      (op = .avg →
        (((aggAdd (aggFold (initAggregator w op) rs) r).2).spd.map Prod.snd).getD i 0 =
          (colOf i (lastN w ((rs ++ [r]).map (fun x => x.spd.map Prod.snd)))).sum /
            (w : ℚ)) ∧
      (op = .max →
        (((aggAdd (aggFold (initAggregator w op) rs) r).2).spd.map Prod.snd).getD i 0 ∈
            colOf i (lastN w ((rs ++ [r]).map (fun x => x.spd.map Prod.snd))) ∧
          ∀ y ∈ colOf i (lastN w ((rs ++ [r]).map (fun x => x.spd.map Prod.snd))),
            y ≤ (((aggAdd (aggFold (initAggregator w op) rs) r).2).spd.map
              Prod.snd).getD i 0)) := by
  obtain ⟨hW, hOp, hRaw, hSpd⟩ := aggFold_fields (initAggregator w op) rs
  have hW0 : (initAggregator w op).windowSize = w := rfl
  have hOp0 : (initAggregator w op).op = op := rfl
  rw [hW0] at hW
  rw [hOp0] at hOp
  set stK := aggFold (initAggregator w op) rs with hstK
  have hsnd : (aggAdd stK r).2 = computeAggregate
      { stK with
        spd := addField stK.op stK.windowSize stK.spd (r.spd.map Prod.snd),
        spdRaw := addField stK.op stK.windowSize stK.spdRaw r.spdRaw } r := rfl
  set st2 : AggState :=
      { stK with
        spd := addField stK.op stK.windowSize stK.spd (r.spd.map Prod.snd),
        spdRaw := addField stK.op stK.windowSize stK.spdRaw r.spdRaw } with hst2
  have hst2W : st2.windowSize = w := hW
  have hst2Op : st2.op = op := hOp
  -- the two field states after all |rs| + 1 additions are per-field folds
  have hst2Raw : st2.spdRaw = ((rs ++ [r]).map (fun x => x.spdRaw)).foldl
      (fun fs arr => addField op w fs arr) FieldState.init := by
    rw [hst2]
    simp only
    rw [hRaw, hOp, hW, List.map_append, List.foldl_append]
    rfl
  have hst2Spd : st2.spd = ((rs ++ [r]).map (fun x => x.spd.map Prod.snd)).foldl
      (fun fs arr => addField op w fs arr) FieldState.init := by
    rw [hst2]
    simp only
    rw [hSpd, hOp, hW, List.map_append, List.foldl_append]
    rfl
  have hrowsRaw : ∀ row ∈ (rs ++ [r]).map (fun x => x.spdRaw), row.length = Lr := by
    intro row hrow
    obtain ⟨x, hx, rfl⟩ := List.mem_map.mp hrow
    exact hraw x hx
  have hrowsSpd : ∀ row ∈ (rs ++ [r]).map (fun x => x.spd.map Prod.snd),
      row.length = Ls := by
    intro row hrow
    obtain ⟨x, hx, rfl⟩ := List.mem_map.mp hrow
    rw [List.length_map]
    exact hspd x hx
  have hNlen : w ≤ ((rs ++ [r]).map (fun x => x.spdRaw)).length := by
    rw [List.length_map, List.length_append]
    simpa using hN
  have hNlen2 : w ≤ ((rs ++ [r]).map (fun x => x.spd.map Prod.snd)).length := by
    rw [List.length_map, List.length_append]
    simpa using hN
  have hrmem : r ∈ rs ++ [r] := List.mem_append.mpr (Or.inr (List.mem_singleton.mpr rfl))
  have hrRawLen : r.spdRaw.length = Lr := hraw r hrmem
  have hrSpdLen : r.spd.length = Ls := hspd r hrmem
  have hlastone : ∀ (f : SpectrumRec → List ℚ),
      lastN 1 ((rs ++ [r]).map f) = [f r] := by
    intro f
    rw [lastN, List.map_append, List.length_append, List.length_map, List.length_map]
    simp only [List.length_singleton]
    rw [show rs.length + 1 - 1 = (rs.map f).length by rw [List.length_map]; omega]
    rw [List.drop_left]
    rfl
  cases op with
  | avg =>
      have hinvRaw : InvAvg w Lr ((rs ++ [r]).map (fun x => x.spdRaw)) st2.spdRaw := by
        rw [hst2Raw]
        have := InvAvg_foldl w Lr hw ((rs ++ [r]).map (fun x => x.spdRaw)) []
          FieldState.init (by simpa using hrowsRaw) (InvAvg_init w Lr)
        simpa using this
      have hinvSpd : InvAvg w Ls ((rs ++ [r]).map (fun x => x.spd.map Prod.snd))
          st2.spd := by
        rw [hst2Spd]
        have := InvAvg_foldl w Ls hw ((rs ++ [r]).map (fun x => x.spd.map Prod.snd)) []
          FieldState.init (by simpa using hrowsSpd) (InvAvg_init w Ls)
        simpa using this
      obtain ⟨lraw, hlraw, hlrawlen, hlrawval⟩ :=
        aggOp_avg_spec w Lr _ st2.spdRaw hinvRaw hNlen hw
      obtain ⟨lspd, hlspd, hlspdlen, hlspdval⟩ :=
        aggOp_avg_spec w Ls _ st2.spd hinvSpd hNlen2 hw
      by_cases hbig : 1 < w
      · obtain ⟨hfr, hfs⟩ := computeAggregate_fields_big st2 r (by rw [hst2W]; exact hbig)
          lraw lspd (by rw [hst2Op]; exact hlraw) (by rw [hst2Op]; exact hlspd)
        rw [hsnd, hfr] at *
        have hkeys : ((r.spd.map Prod.fst).zip lspd).map Prod.fst = r.spd.map Prod.fst :=
          List.map_fst_zip _ _ (by rw [List.length_map, hrSpdLen, hlspdlen])
        have hvals : ((r.spd.map Prod.fst).zip lspd).map Prod.snd = lspd :=
          List.map_snd_zip _ _ (by rw [List.length_map, hrSpdLen, hlspdlen])
        refine ⟨hlrawlen, by rw [hsnd, hfs, hkeys], ?_, ?_⟩
        · intro i hi
          refine ⟨fun _ => hlrawval i hi, fun habs => by simp at habs⟩
        · intro i hi
          refine ⟨fun _ => ?_, fun habs => by simp at habs⟩
          rw [hsnd, hfs, hvals]
          exact hlspdval i hi
      · obtain ⟨hfr, hfs⟩ := computeAggregate_fields_small st2 r (by rw [hst2W]; exact hbig)
        have hw1 : w = 1 := by omega
        refine ⟨by rw [hsnd, hfr]; exact hrRawLen, by rw [hsnd, hfs], ?_, ?_⟩
        · intro i hi
          refine ⟨fun _ => ?_, fun habs => by simp at habs⟩
          rw [hsnd, hfr, hw1, hlastone (fun x => x.spdRaw)]
          rw [show colOf i [r.spdRaw] = [r.spdRaw.getD i 0] from rfl]
          simp
        · intro i hi
          refine ⟨fun _ => ?_, fun habs => by simp at habs⟩
          rw [hsnd, hfs, hw1, hlastone (fun x => x.spd.map Prod.snd)]
          rw [show colOf i [r.spd.map Prod.snd] = [(r.spd.map Prod.snd).getD i 0]
            from rfl]
          simp
  | max =>
      have hinvRaw : InvMax w Lr ((rs ++ [r]).map (fun x => x.spdRaw)) st2.spdRaw := by
        rw [hst2Raw]
        have := InvMax_foldl w Lr hw ((rs ++ [r]).map (fun x => x.spdRaw)) []
          FieldState.init (by simpa using hrowsRaw) (InvMax_init w Lr)
        simpa using this
      have hinvSpd : InvMax w Ls ((rs ++ [r]).map (fun x => x.spd.map Prod.snd))
          st2.spd := by
        rw [hst2Spd]
        have := InvMax_foldl w Ls hw ((rs ++ [r]).map (fun x => x.spd.map Prod.snd)) []
          FieldState.init (by simpa using hrowsSpd) (InvMax_init w Ls)
        simpa using this
      obtain ⟨lraw, hlraw, hlrawlen, hlrawval⟩ :=
        aggOp_max_spec w Lr _ st2.spdRaw hinvRaw hNlen hw
      obtain ⟨lspd, hlspd, hlspdlen, hlspdval⟩ :=
        aggOp_max_spec w Ls _ st2.spd hinvSpd hNlen2 hw
      by_cases hbig : 1 < w
      · obtain ⟨hfr, hfs⟩ := computeAggregate_fields_big st2 r (by rw [hst2W]; exact hbig)
          lraw lspd (by rw [hst2Op]; exact hlraw) (by rw [hst2Op]; exact hlspd)
        have hkeys : ((r.spd.map Prod.fst).zip lspd).map Prod.fst = r.spd.map Prod.fst :=
          List.map_fst_zip _ _ (by rw [List.length_map, hrSpdLen, hlspdlen])
        have hvals : ((r.spd.map Prod.fst).zip lspd).map Prod.snd = lspd :=
          List.map_snd_zip _ _ (by rw [List.length_map, hrSpdLen, hlspdlen])
        refine ⟨by rw [hsnd, hfr]; exact hlrawlen, by rw [hsnd, hfs, hkeys], ?_, ?_⟩
        · intro i hi
          refine ⟨fun habs => by simp at habs, fun _ => ?_⟩
          rw [hsnd, hfr]
          exact hlrawval i hi
        · intro i hi
          refine ⟨fun habs => by simp at habs, fun _ => ?_⟩
          rw [hsnd, hfs, hvals]
          exact hlspdval i hi
      · obtain ⟨hfr, hfs⟩ := computeAggregate_fields_small st2 r (by rw [hst2W]; exact hbig)
        have hw1 : w = 1 := by omega
        refine ⟨by rw [hsnd, hfr]; exact hrRawLen, by rw [hsnd, hfs], ?_, ?_⟩
        · intro i hi
          refine ⟨fun habs => by simp at habs, fun _ => ?_⟩
          rw [hsnd, hfr, hw1, hlastone (fun x => x.spdRaw)]
          rw [show colOf i [r.spdRaw] = [r.spdRaw.getD i 0] from rfl]
          simp
        · intro i hi
          refine ⟨fun habs => by simp at habs, fun _ => ?_⟩
          rw [hsnd, hfs, hw1, hlastone (fun x => x.spd.map Prod.snd)]
          rw [show colOf i [r.spd.map Prod.snd] = [(r.spd.map Prod.snd).getD i 0]
            from rfl]
          simp

/-- Two concrete spectrum records used to instantiate the aggregator theorem. -/
def recA : SpectrumRec := ⟨[(400, 2)], [1, 3], "counts"⟩

/-- Second concrete spectrum record for the aggregator instantiation. -/
def recB : SpectrumRec := ⟨[(400, 4)], [3, 5], "counts"⟩

/-- Witness for C6 at window 2, func `avg`, on two concrete records. -/
theorem aggregator_window_correct_witness :
    ((1 : ℕ) ≤ 2 ∧ (∀ x ∈ [recA] ++ [recB], x.spdRaw.length = 2) ∧
      (∀ x ∈ [recA] ++ [recB], x.spd.length = 1) ∧
      2 ≤ [recA].length + 1) ∧
    (((aggAdd (aggFold (initAggregator 2 .avg) [recA]) recB).2).spdRaw.length = 2 ∧
    ((aggAdd (aggFold (initAggregator 2 .avg) [recA]) recB).2).spd.map Prod.fst =
      recB.spd.map Prod.fst ∧
    (∀ i, i < 2 →
      (AggFunc.avg = .avg →
        ((aggAdd (aggFold (initAggregator 2 .avg) [recA]) recB).2).spdRaw.getD i 0 =
          (colOf i (lastN 2 (([recA] ++ [recB]).map (fun x => x.spdRaw)))).sum /
            ((2 : ℕ) : ℚ)) ∧
      (AggFunc.avg = .max →
        ((aggAdd (aggFold (initAggregator 2 .avg) [recA]) recB).2).spdRaw.getD i 0 ∈
            colOf i (lastN 2 (([recA] ++ [recB]).map (fun x => x.spdRaw))) ∧
          ∀ y ∈ colOf i (lastN 2 (([recA] ++ [recB]).map (fun x => x.spdRaw))),
            y ≤ ((aggAdd (aggFold (initAggregator 2 .avg) [recA]) recB).2).spdRaw.getD
              i 0)) ∧
    (∀ i, i < 1 →
      (AggFunc.avg = .avg →
        (((aggAdd (aggFold (initAggregator 2 .avg) [recA]) recB).2).spd.map
            Prod.snd).getD i 0 =
          (colOf i (lastN 2 (([recA] ++ [recB]).map
            (fun x => x.spd.map Prod.snd)))).sum / ((2 : ℕ) : ℚ)) ∧
      (AggFunc.avg = .max →
        (((aggAdd (aggFold (initAggregator 2 .avg) [recA]) recB).2).spd.map
            Prod.snd).getD i 0 ∈
            colOf i (lastN 2 (([recA] ++ [recB]).map (fun x => x.spd.map Prod.snd))) ∧
          ∀ y ∈ colOf i (lastN 2 (([recA] ++ [recB]).map
              (fun x => x.spd.map Prod.snd))),
            y ≤ (((aggAdd (aggFold (initAggregator 2 .avg) [recA]) recB).2).spd.map
              Prod.snd).getD i 0))) :=
  ⟨⟨by decide, by decide, by decide, by decide⟩,
   aggregator_window_correct 2 .avg [recA] recB 2 1 (by decide) (by decide)
     (by decide) (by decide)⟩

/-! ### Auto-exposure search (`OceanOpticsSpectrometer._spd_with_auto`,
oceanoptics.py lines 247-358).

Floats are idealised as rationals; the float literals 0.05, 0.98, 0.1 and
0.15 become 1/20, 49/50, 1/10 and 3/20.  `(low * high) ** 0.5` is an opaque
float operation here, taken as a parameter `sqrtFn`.  The instrument is the
parameter `probe k t`: the max intensity reported by the `k`-th acquisition
(0-based, mirroring `total_meas` before its increment in `spectrum_at`),
taken at integration time `t`.  `auto_min_exposure_time` and
`auto_max_exposure_time` are falsy in Python when `None` or `0.0`; both
cases behave identically in this function, so they are modelled as the
rational 0. -/

/-- Python `max(x, y)` on two rationals (returns the first argument on
ties), written with an explicit `if` so that it evaluates by reduction. -/
def rmax (x y : ℚ) : ℚ := if x < y then y else x

/-- Python `min(x, y)` on two rationals. -/
def rmin (x y : ℚ) : ℚ := if y < x then y else x

/-- Python `abs` on a rational. -/
def rabs (x : ℚ) : ℚ := if x < 0 then -x else x

structure AutoConfig where
  hwLow : ℚ
  hwHigh : ℚ
  minTimeOpt : ℚ
  maxTimeOpt : ℚ
  maxIterations : ℕ
  maxIntensity : ℚ
  threshold : ℚ

structure AutoState where
  low : ℚ
  high : ℚ
  best : ℚ
  test : ℚ
  meas : ℕ

/-- The `for _ in range(max_iterations)` loop of `_spd_with_auto`
(lines 311-354), fuelled by the remaining iteration count.  `meas` mirrors
`total_meas`. -/
def autoLoop (sqrtFn : ℚ → ℚ) (probe : ℕ → ℚ → ℚ)
    (minTime maxTime overThr target : ℚ) : ℕ → AutoState → AutoState
  | 0, st => st
  | fuel + 1, st =>
    let t1 := rmax minTime (rmin maxTime (sqrtFn (st.low * st.high)))
    if rabs (t1 - st.best) / st.best < 1/20 then st
    else
      let m := probe st.meas t1
      if overThr ≤ m then
        autoLoop sqrtFn probe minTime maxTime overThr target fuel
          { st with test := t1, meas := st.meas + 1, high := t1 }
      else
        let pred := rmax t1 (rmin st.high (t1 * (target / m)))
        if 1/10 < rabs (pred - t1) / t1 then
          let m2 := probe (st.meas + 1) pred
          if m2 < overThr then
            if rabs (m2 - target) / target < 3/20 then
              { st with test := pred, meas := st.meas + 2, low := t1, best := pred }
            else
              autoLoop sqrtFn probe minTime maxTime overThr target fuel
                { st with test := pred, meas := st.meas + 2, low := t1, best := pred }
          else
            autoLoop sqrtFn probe minTime maxTime overThr target fuel
              { st with test := pred, meas := st.meas + 2, low := t1, best := t1, high := pred }
        else
          if rabs (m - target) / target < 3/20 then
            { st with test := t1, meas := st.meas + 1, low := t1, best := t1 }
          else
            autoLoop sqrtFn probe minTime maxTime overThr target fuel
              { st with test := t1, meas := st.meas + 1, low := t1, best := t1 }

/-- `_spd_with_auto` (lines 247-358): returns the selected integration time
(before the final `int(...)` truncation) and the number of instrument
acquisitions performed (`total_meas`). -/
def spdWithAuto (sqrtFn : ℚ → ℚ) (probe : ℕ → ℚ → ℚ) (cfg : AutoConfig)
    (initTime : ℚ) : ℚ × ℕ :=
  let p0 := cfg.minTimeOpt
  let q0 := cfg.maxTimeOpt
  let p1 := if p0 ≠ 0 ∧ q0 ≠ 0 ∧ q0 < p0 then q0 else p0
  let q1 := if p0 ≠ 0 ∧ q0 ≠ 0 ∧ q0 < p0 then p0 else q0
  let minTime := if p1 ≠ 0 then rmax cfg.hwLow p1 else cfg.hwLow
  let maxTime := if q1 ≠ 0 then rmin cfg.hwHigh q1 else cfg.hwHigh
  let initT := rmax minTime (rmin initTime maxTime)
  let target := cfg.maxIntensity * cfg.threshold
  let overThr := cfg.maxIntensity * (49/50)
  let initMax := probe 0 initT
  if initMax < overThr then (initT, 1)
  else
    let minMax := probe 1 minTime
    if overThr ≤ minMax then (minTime, 2)
    else
      let st := autoLoop sqrtFn probe minTime maxTime overThr target
        cfg.maxIterations ⟨minTime, initT, minTime, minTime, 2⟩
      (st.best, st.meas)

theorem autoLoop_meas_le (sqrtFn : ℚ → ℚ) (probe : ℕ → ℚ → ℚ)
    (minTime maxTime overThr target : ℚ) (fuel : ℕ) (st : AutoState) :
    (autoLoop sqrtFn probe minTime maxTime overThr target fuel st).meas ≤
      st.meas + 2 * fuel := by
  induction fuel generalizing st with
  | zero => simp [autoLoop]
  | succ n ih =>
    simp only [autoLoop]
    split_ifs
    all_goals first
      | omega
      | (dsimp only; omega)
      | exact (ih _).trans (by dsimp only; omega)

/-- C8 counterexample: with `auto_max_iterations = 1` and an instrument that
always reports full-scale intensity, `_spd_with_auto` performs 2
acquisitions — more than the configured maximum probe count. -/
theorem auto_exposure_probe_counterexample :
    (spdWithAuto (fun _ => 0) (fun _ _ => 65535)
      ⟨1000, 1000000, 0, 0, 1, 65535, 4/5⟩ 10000).2 = 2 ∧
    ¬ ((spdWithAuto (fun _ => 0) (fun _ _ => 65535)
      ⟨1000, 1000000, 0, 0, 1, 65535, 4/5⟩ 10000).2 ≤
        (⟨1000, 1000000, 0, 0, 1, 65535, 4/5⟩ : AutoConfig).maxIterations) := by
  have he : (spdWithAuto (fun _ => 0) (fun _ _ => 65535)
      ⟨1000, 1000000, 0, 0, 1, 65535, 4/5⟩ 10000).2 = 2 := by
    norm_num [spdWithAuto, rmax, rmin]
  refine ⟨he, ?_⟩
  rw [he]
  decide

/-- C8 (amended): for every configuration and every instrument response, a
single auto-exposure search performs at most `2 + 2 * max_iterations`
acquisitions: one initial probe, one probe at the minimum bound, and at most
two probes (geometric-mean test plus optional prediction test) per loop
iteration. -/
theorem auto_exposure_measurement_bound (sqrtFn : ℚ → ℚ) (probe : ℕ → ℚ → ℚ)
    (cfg : AutoConfig) (initTime : ℚ) :
    (spdWithAuto sqrtFn probe cfg initTime).2 ≤ 2 + 2 * cfg.maxIterations := by
  simp only [spdWithAuto]
  split_ifs
  all_goals try dsimp only
  all_goals first
    | omega
    | exact le_trans (autoLoop_meas_le _ _ _ _ _ _ _ _) (by dsimp only; omega)

end TobesUI
